import Mathlib

/-!
Verification model of the `monitoring-rs` log pipeline.

All Rust strings and byte buffers are modelled as `List Nat` (their bytes);
paths are likewise byte/component lists.  HashMap/HashSet state is modelled
as insertion-ordered association lists / duplicate-free lists, fixing one
iteration order (Rust leaves it unspecified).  Fallible operations return
`Except DbErr`/`Option`.
-/

set_option maxRecDepth 100000

namespace Monitoring

/-- Association-list lookup (model of `HashMap::get`). -/
def alGet {α β : Type} [DecidableEq α] : List (α × β) → α → Option β
  | [], _ => none
  | (a, b) :: t, k => if a = k then some b else alGet t k

/-- Association-list update: replace in place if the key is present,
otherwise append at the end (model of `HashMap` insertion, with iteration
order fixed to insertion order). -/
def alSet {α β : Type} [DecidableEq α] : List (α × β) → α → β → List (α × β)
  | [], k, v => [(k, v)]
  | (a, b) :: t, k, v => if a = k then (k, v) :: t else (a, b) :: alSet t k v

/-- Truncation to 32 bits (`u32` wrap-around arithmetic). -/
def u32 (n : Nat) : Nat := n % 4294967296

/-- 32-bit left rotation. -/
def rotl32 (x n : Nat) : Nat := u32 ((x <<< n) ||| (x >>> (32 - n)))

/-- MD5 round constants `K[i] = floor(2^32 * abs(sin(i+1)))`. -/
def md5K : List Nat :=
  [0xd76aa478, 0xe8c7b756, 0x242070db, 0xc1bdceee,
   0xf57c0faf, 0x4787c62a, 0xa8304613, 0xfd469501,
   0x698098d8, 0x8b44f7af, 0xffff5bb1, 0x895cd7be,
   0x6b901122, 0xfd987193, 0xa679438e, 0x49b40821,
   0xf61e2562, 0xc040b340, 0x265e5a51, 0xe9b6c7aa,
   0xd62f105d, 0x02441453, 0xd8a1e681, 0xe7d3fbc8,
   0x21e1cde6, 0xc33707d6, 0xf4d50d87, 0x455a14ed,
   0xa9e3e905, 0xfcefa3f8, 0x676f02d9, 0x8d2a4c8a,
   0xfffa3942, 0x8771f681, 0x6d9d6122, 0xfde5380c,
   0xa4beea44, 0x4bdecfa9, 0xf6bb4b60, 0xbebfbc70,
   0x289b7ec6, 0xeaa127fa, 0xd4ef3085, 0x04881d05,
   0xd9d4d039, 0xe6db99e5, 0x1fa27cf8, 0xc4ac5665,
   0xf4292244, 0x432aff97, 0xab9423a7, 0xfc93a039,
   0x655b59c3, 0x8f0ccc92, 0xffeff47d, 0x85845dd1,
   0x6fa87e4f, 0xfe2ce6e0, 0xa3014314, 0x4e0811a1,
   0xf7537e82, 0xbd3af235, 0x2ad7d2bb, 0xeb86d391]

/-- MD5 per-round left-rotation amounts. -/
def md5S : List Nat :=
  [7, 12, 17, 22, 7, 12, 17, 22, 7, 12, 17, 22, 7, 12, 17, 22,
   5, 9, 14, 20, 5, 9, 14, 20, 5, 9, 14, 20, 5, 9, 14, 20,
   4, 11, 16, 23, 4, 11, 16, 23, 4, 11, 16, 23, 4, 11, 16, 23,
   6, 10, 15, 21, 6, 10, 15, 21, 6, 10, 15, 21, 6, 10, 15, 21]

/-- MD5 nonlinear round function (F, G, H, I by round quarter). -/
def md5F (i b c d : Nat) : Nat :=
  if i < 16 then (b &&& c) ||| ((b ^^^ 0xffffffff) &&& d)
  else if i < 32 then (d &&& b) ||| ((d ^^^ 0xffffffff) &&& c)
  else if i < 48 then b ^^^ c ^^^ d
  else c ^^^ (b ||| (d ^^^ 0xffffffff))

/-- MD5 message-word schedule. -/
def md5G (i : Nat) : Nat :=
  if i < 16 then i
  else if i < 32 then (5 * i + 1) % 16
  else if i < 48 then (3 * i + 5) % 16
  else (7 * i) % 16

/-- One MD5 round on the state `(a, b, c, d)` with message words `m`. -/
def md5Round (m : List Nat) (st : Nat × Nat × Nat × Nat) (i : Nat) :
    Nat × Nat × Nat × Nat :=
  let a := st.1
  let b := st.2.1
  let c := st.2.2.1
  let d := st.2.2.2
  let f := u32 (md5F i b c d + a + md5K.getD i 0 + m.getD (md5G i) 0)
  (d, u32 (b + rotl32 f (md5S.getD i 0)), b, c)

/-- Compress one 16-word MD5 block into the running state. -/
def md5Block (st : Nat × Nat × Nat × Nat) (m : List Nat) :
    Nat × Nat × Nat × Nat :=
  let r := (List.range 64).foldl (md5Round m) st
  (u32 (st.1 + r.1), u32 (st.2.1 + r.2.1), u32 (st.2.2.1 + r.2.2.1),
   u32 (st.2.2.2 + r.2.2.2))

/-- Worker for `chunks`: `cur` is the chunk being filled, `k` the
remaining capacity of the current chunk. -/
def chunksGo {α : Type} (n : Nat) : List α → List α → Nat → List (List α)
  | [], cur, _ => if cur.isEmpty then [] else [cur]
  | a :: t, cur, Nat.succ k => chunksGo n t (cur ++ [a]) k
  | a :: t, cur, 0 => cur :: chunksGo n t [a] (n - 1)

/-- Split a list into chunks of `n` elements (`n > 0`). -/
def chunks {α : Type} (n : Nat) (l : List α) : List (List α) :=
  chunksGo n l [] n

/-- Little-endian read of a byte list as one number. -/
def leWord (bs : List Nat) : Nat := bs.foldr (fun b acc => b + 256 * acc) 0

/-- `cnt` little-endian bytes of `n`. -/
def leBytes (n cnt : Nat) : List Nat :=
  match cnt with
  | 0 => []
  | c + 1 => n % 256 :: leBytes (n / 256) c

/-- MD5 padding: `0x80`, zeros to 56 mod 64, then the 64-bit little-endian
bit length. -/
def md5Pad (msg : List Nat) : List Nat :=
  msg ++ 128 :: List.replicate ((119 - msg.length % 64) % 64) 0
      ++ leBytes (msg.length * 8 % 18446744073709551616) 8

/-- Full MD5 digest of a byte string, as 16 bytes (models the `md5` crate's
`Context::consume`/`compute`). -/
def md5 (msg : List Nat) : List Nat :=
  let st := (chunks 64 (md5Pad msg)).foldl
    (fun st blk => md5Block st ((chunks 4 blk).map leWord))
    (0x67452301, 0xefcdab89, 0x98badcfe, 0x10325476)
  leBytes st.1 4 ++ leBytes st.2.1 4 ++ leBytes st.2.2.1 4 ++ leBytes st.2.2.2 4

/-- Lowercase hex digit of a nibble. -/
def hexDigit (n : Nat) : Nat := if n < 10 then 48 + n else 87 + n

/-- Two lowercase hex digits of one byte (`{:02x}`); the `% 256` models the
`u8` domain of digest bytes. -/
def hexByte (b : Nat) : List Nat := [hexDigit (b % 256 / 16), hexDigit (b % 16)]

/-- Lowercase hex rendering of a byte string (`format!("{:x}", digest)`). -/
def hexRender (bs : List Nat) : List Nat := bs.flatMap hexByte

/-- UTF-8 validation automaton: `exp` continuation bytes are still
expected, the next of which must lie in `lo..hi` (after the first,
`128..191`).  Leading-byte dispatch rejects stray continuation bytes and
overlong prefixes (`C0`/`C1`, `F5..`), and the `E0`/`ED`/`F0`/`F4`
special ranges exclude overlong encodings, surrogates and values above
`U+10FFFF` — the exact set `String::from_utf8` accepts. -/
def vuGo (exp lo hi : Nat) : List Nat → Bool
  | [] => exp == 0
  | b :: bs =>
    if exp == 0 then
      if b < 128 then vuGo 0 0 0 bs
      else if b < 194 then false
      else if b < 224 then vuGo 1 128 191 bs
      else if b = 224 then vuGo 2 160 191 bs
      else if b = 237 then vuGo 2 128 159 bs
      else if b < 240 then vuGo 2 128 191 bs
      else if b = 240 then vuGo 3 144 191 bs
      else if b < 244 then vuGo 3 128 191 bs
      else if b = 244 then vuGo 3 128 143 bs
      else false
    else if lo ≤ b && b ≤ hi then vuGo (exp - 1) 128 191 bs
    else false

/-- UTF-8 validity of a byte string (models `String::from_utf8` /
`OsStr::to_str` success). -/
def validUtf8 (l : List Nat) : Bool := vuGo 0 0 0 l

deriving instance DecidableEq for Except

/-- `DATA_FILE_RECORD_SEPARATOR` from `log_database/mod.rs`. -/
def DATA_FILE_RECORD_SEPARATOR : Nat := 147

/-- `crate::LogEntry`: a log line (bytes of the Rust `String`) and its
metadata map (bytes of each key/value), `src/lib.rs`. -/
structure LogEntry where
  line : List Nat
  metadata : List (List Nat × List Nat)
deriving DecidableEq

/-- Errors produced by `Database` operations (the source wraps these
messages in `io::Error`; each variant carries the identifying data the
message contains). -/
inductive DbErr
  /-- "invalid data file ...: extension must be `dat` or `json`" -/
  | invalidFile : Option (List Nat) → Option (List Nat) → DbErr
  /-- "invalid data file ...: not a file" -/
  | notAFile : Option (List Nat) → Option (List Nat) → DbErr
  /-- "invalid data file name ...: empty file stem" -/
  | emptyStem : Option (List Nat) → DbErr
  /-- "invalid data file name ...: non-utf8 file name" -/
  | nonUtf8Name : Option (List Nat) → DbErr
  /-- `serde_json::from_reader` failure on a metadata file -/
  | jsonErr : Option (List Nat) → DbErr
  /-- "corrupt data file for key ...: invalid utf8" -/
  | corrupt : List Nat → DbErr
deriving DecidableEq

/-- `log_database::Database`, together with the directory it owns:
`files` maps a fingerprint (hex bytes) to the bytes of its `.dat` file
(the source keeps an open handle; the bytes live on disk), `jsons` maps a
fingerprint to the metadata map persisted in its `.json` sidecar (JSON
round-tripping is modelled as the identity on maps), and `index` is the
in-memory inverted index `(key, value) → set of fingerprints` with
`HashSet` iteration order modelled as insertion order. -/
structure Database where
  files : List (List Nat × List Nat)
  jsons : List (List Nat × List (List Nat × List Nat))
  index : List ((List Nat × List Nat) × List (List Nat))
deriving DecidableEq

/-- `Database::hash`: XOR-fold of `md5(key ++ value)` over the metadata
entries, rendered as lowercase hex (`Context::consume(key)` then
`consume(value)` digests the concatenation). -/
def Database.hash (metadata : List (List Nat × List Nat)) : List Nat :=
  hexRender (metadata.foldl
    (fun digest kv => List.zipWith (fun a b => a ^^^ b) digest (md5 (kv.1 ++ kv.2)))
    (List.replicate 16 0))

/-- `HashSet` insertion on an insertion-ordered duplicate-free list
(`if !keys.contains(&key) { keys.insert(key.clone()) }`). -/
def addKey (key : List Nat) (keys : List (List Nat)) : List (List Nat) :=
  if key ∈ keys then keys else keys ++ [key]

/-- Repeated `addKey` (used to state the open-time index lemmas). -/
def addAll (keys : List (List Nat)) (fs : List (List Nat)) : List (List Nat) :=
  fs.foldl (fun ks f => addKey f ks) keys

/-- The index-update loop shared by `Database::write` and
`Database::open`: for each metadata entry, ensure `key` is a member of the
index set for that entry (created empty when absent). -/
def indexWith (key : List Nat) (metadata : List (List Nat × List Nat))
    (index : List ((List Nat × List Nat) × List (List Nat))) :
    List ((List Nat × List Nat) × List (List Nat)) :=
  metadata.foldl
    (fun ix meta => alSet ix meta (addKey key ((alGet ix meta).getD [])))
    index

/-- `Database::write`: update the index for every metadata entry, then
append the line to the fingerprint's data file — preceded by the record
separator when the file already exists, and otherwise creating the
`.json` sidecar and a fresh data file holding just the line. -/
def Database.write (db : Database) (entry : LogEntry) : Database :=
  let key := Database.hash entry.metadata
  let index := indexWith key entry.metadata db.index
  match alGet db.files key with
  | some content =>
      { files := alSet db.files key (content ++ DATA_FILE_RECORD_SEPARATOR :: entry.line),
        jsons := db.jsons,
        index := index }
  | none =>
      { files := alSet db.files key entry.line,
        jsons := alSet db.jsons key entry.metadata,
        index := index }

/-- The read loop of `Database::read`: `cur` is the `line_bytes` buffer of
the current `read_until(DATA_FILE_RECORD_SEPARATOR, ..)` call.  A
separator closes the current line (the trailing separator byte is
popped); at end of file the pending bytes form a final line, except that
a pending empty buffer yields nothing because `read_until` then returns
`0` and the loop breaks. -/
def readChunksGo (cur : List Nat) : List Nat → List (List Nat)
  | [] => if cur.isEmpty then [] else [cur]
  | b :: bs =>
    if b = DATA_FILE_RECORD_SEPARATOR then cur :: readChunksGo [] bs
    else readChunksGo (cur ++ [b]) bs

/-- The lines stored in a data file's bytes, as read by `Database::read`. -/
def readChunks (c : List Nat) : List (List Nat) := readChunksGo [] c

/-- `Database::read`: `Ok(None)` when the fingerprint has no data file,
the separator-split lines when all are valid UTF-8, and a corruption
error naming the fingerprint otherwise (the loop fails at the first
invalid chunk; the net result is the same). -/
def Database.read (db : Database) (key : List Nat) :
    Except DbErr (Option (List (List Nat))) :=
  match alGet db.files key with
  | none => Except.ok none
  | some c =>
      if (readChunks c).all validUtf8 then Except.ok (some (readChunks c))
      else Except.error (DbErr.corrupt key)

/-- The accumulation loop of `Database::query`: extend `lines` with each
fingerprint's lines, propagating the first read error. -/
def queryLoop (db : Database) : List (List Nat) → Except DbErr (List (List Nat))
  | [] => Except.ok []
  | key :: rest =>
    match db.read key with
    | Except.error e => Except.error e
    | Except.ok none => queryLoop db rest
    | Except.ok (some ls) =>
      match queryLoop db rest with
      | Except.error e => Except.error e
      | Except.ok acc => Except.ok (ls ++ acc)

/-- `Database::query`: `Ok(None)` when the index has no entry for
`(key, value)`; otherwise the concatenation of the lines of every indexed
fingerprint. -/
def Database.query (db : Database) (key value : List Nat) :
    Except DbErr (Option (List (List Nat))) :=
  match alGet db.index (key, value) with
  | none => Except.ok none
  | some keys =>
    match queryLoop db keys with
    | Except.error e => Except.error e
    | Except.ok lines => Except.ok (some lines)

/-- One entry of the data directory as `Database::open` inspects it:
the file stem (`None` models `file_stem() == None`), the extension when
UTF-8-decodable (`extension().and_then(to_str)`), whether the entry is a
regular file, the raw bytes (read when the extension is `dat`), and the
`serde_json` parse result of the contents (consulted when the extension
is `json`; `none` models a parse failure). -/
structure DirEntry where
  stem : Option (List Nat)
  ext : Option (List Nat)
  isFile : Bool
  bytes : List Nat
  meta : Option (List (List Nat × List Nat))
deriving DecidableEq

/-- The extension bytes `"dat"`. -/
def datExt : List Nat := [100, 97, 116]

/-- The extension bytes `"json"`. -/
def jsonExt : List Nat := [106, 115, 111, 110]

/-- The loop body of `Database::open` over directory entries, carried out
on an accumulating `Database` (checks in source order: extension, regular
file, stem present, stem valid UTF-8, then open/parse). -/
def openLoop (acc : Database) : List DirEntry → Except DbErr Database
  | [] => Except.ok acc
  | e :: rest =>
    if e.ext ≠ some datExt ∧ e.ext ≠ some jsonExt then
      Except.error (DbErr.invalidFile e.stem e.ext)
    else if ¬ e.isFile then
      Except.error (DbErr.notAFile e.stem e.ext)
    else
      match e.stem with
      | none => Except.error (DbErr.emptyStem e.ext)
      | some s =>
        if ¬ validUtf8 s then Except.error (DbErr.nonUtf8Name e.ext)
        else if e.ext = some datExt then
          openLoop { acc with files := alSet acc.files s e.bytes } rest
        else
          match e.meta with
          | none => Except.error (DbErr.jsonErr (some s))
          | some m =>
            openLoop
              { acc with
                jsons := alSet acc.jsons s m,
                index := indexWith (Database.hash m) m acc.index } rest

/-- `Database::open` on the entries of a data directory. -/
def Database.openDir (entries : List DirEntry) : Except DbErr Database :=
  openLoop { files := [], jsons := [], index := [] } entries

/-- The fresh store produced by `Database::open` on an empty directory. -/
def emptyDb : Database := { files := [], jsons := [], index := [] }

/-- The data directory owned by a store: one `.dat` entry per data file
and one `.json` entry per sidecar (a listing of the flat directory; the
listing order is arbitrary in reality and fixed here). -/
def dirOf (db : Database) : List DirEntry :=
  db.files.map (fun fc => ⟨some fc.1, some datExt, true, fc.2, none⟩)
    ++ db.jsons.map (fun fm => ⟨some fm.1, some jsonExt, true, [], some fm.2⟩)

/-- Write a sequence of records into a store opened on an empty
directory. -/
def writeAll (entries : List LogEntry) : Database :=
  entries.foldl Database.write emptyDb

/-! ### Directory collector (`log_collector/directory.rs`)

Paths are modelled as lists of abstract component identifiers, so
`Path::starts_with` is the component-wise prefix and `to_string_lossy` is
the identity.  Watcher descriptors are natural numbers handed out
consecutively (`inotify` watch ids); the watcher's state is folded into
the collector as the next fresh descriptor plus the list of paths passed
to `watch_file`/`watch_directory`. -/

/-- The metadata key `"path"`. -/
def pathKey : List Nat := [112, 97, 116, 104]

/-- `WatchedFile`: display paths, the canonical path the open `File`
handle refers to, the reader position, and the partial-line buffer. -/
structure WatchedFile where
  paths : List (List Nat)
  filePath : List Nat
  pos : Nat
  entryBuf : List Nat
deriving DecidableEq

/-- `Collector`, with the watcher state inlined. -/
structure Collector where
  root_path : List Nat
  root_wd : Nat
  watched_files : List (Nat × WatchedFile)
  watched_paths : List (List Nat × Nat)
  nextWd : Nat
  watcherPaths : List (List Nat)
deriving DecidableEq

/-- The filesystem seen by the collector: the root-directory listing
(display path together with its canonicalization) and the contents of
each canonical file path. -/
structure FsModel where
  entries : List (List Nat × List Nat)
  content : List (List Nat × List Nat)
deriving DecidableEq

/-- The collector's internal `Event` enum, with the `&mut WatchedFile`
payloads replaced by the watch descriptor that located them (the borrow
cannot be modelled directly; the descriptor identifies the same entry of
`watched_files`). -/
inductive Event
  | create : List Nat → List Nat → Event
  | append : Nat → Event
  | truncate : Nat → Event
deriving DecidableEq

/-- `Collector::handle_event_create`.  Returns the updated collector and
the descriptor of the affected `WatchedFile`; `none` models the `unwrap`
on a `watched_paths` descriptor missing from `watched_files` and a
failing `File::open`. -/
def handleEventCreate (col : Collector) (fs : FsModel)
    (path canonicalPath : List Nat) : Option (Collector × Nat) :=
  match alGet col.watched_paths canonicalPath with
  | some wd =>
    match alGet col.watched_files wd with
    | none => none
    | some wf =>
      some ({ col with
        watched_files := alSet col.watched_files wd { wf with paths := wf.paths ++ [path] },
        watched_paths := alSet col.watched_paths path wd }, wd)
  | none =>
    match alGet fs.content canonicalPath with
    | none => none
    | some content =>
      let wd := col.nextWd
      let paths := [path] ++
        (if canonicalPath ≠ path ∧ col.root_path.isPrefixOf canonicalPath
         then [canonicalPath] else [])
      let wps := if canonicalPath ≠ path
        then alSet col.watched_paths canonicalPath wd
        else col.watched_paths
      some ({ col with
        watched_files := alSet col.watched_files wd ⟨paths, canonicalPath, content.length, []⟩,
        watched_paths := alSet wps path wd,
        nextWd := wd + 1,
        watcherPaths := col.watcherPaths ++ [canonicalPath] }, wd)

/-- `Collector::check_event`: a root event re-scans the listing and emits
`Create` for unwatched entries; an event whose descriptor has a
`WatchedFile` compares the read position with the file length; an
unregistered descriptor is logged and dropped.  `none` models an I/O
failure of `metadata()`. -/
def checkEvent (col : Collector) (fs : FsModel) (descriptor : Nat) :
    Option (List Event) :=
  if descriptor = col.root_wd then
    some ((fs.entries.filter (fun pc => (alGet col.watched_paths pc.1).isNone)).map
      (fun pc => Event.create pc.1 pc.2))
  else
    match alGet col.watched_files descriptor with
    | none => some []
    | some wf =>
      match alGet fs.content wf.filePath with
      | none => none
      | some content =>
        if wf.pos ≤ content.length then some [Event.append descriptor]
        else some [Event.truncate descriptor]

/-- `Collector::handle_event_truncate`: seek back to byte 0 and clear the
partial-line buffer. -/
def handleEventTruncate (wf : WatchedFile) : WatchedFile :=
  { wf with pos := 0, entryBuf := [] }

/-- The `read_file` loop of `Collector::collect_entries`: `buf` is the
`entry_buf` contents carried over from previous `read_line` calls and
`seg` the bytes consumed so far by the current `read_line` call.  Each
`read_line` call reads up to and including the next newline (or to end
of file) and validates the bytes it read as UTF-8, failing with an
`InvalidData` error — modelled as `none`, which `read_file` and
`collect_entries` propagate, discarding every record of the drain —
when they are not.  On success a newline-terminated segment completes
the line `buf ++ seg` (the newline is popped), emitting one record per
display path with metadata `{"path": <display path>}`, and the buffer
clears; at end of file a nonempty pending segment joins the buffer as
the retained fragment. -/
def drainGo (paths : List (List Nat)) (buf seg : List Nat) :
    List Nat → Option (List LogEntry × List Nat)
  | [] =>
    if seg.isEmpty then some ([], buf)
    else if validUtf8 seg then some ([], buf ++ seg)
    else none
  | b :: bs =>
    if b = 10 then
      if validUtf8 (seg ++ [10]) then
        match drainGo paths [] [] bs with
        | some r => some (paths.map (fun p => ⟨buf ++ seg, [(pathKey, p)]⟩) ++ r.1, r.2)
        | none => none
      else none
    else drainGo paths buf (seg ++ [b]) bs

/-- Drain a `WatchedFile` against the current bytes of its file: emit the
records of every newly completed line and advance the reader to EOF, or
fail with `read_line`'s `InvalidData` error — emitting no records at
all — when some segment it reads is not valid UTF-8. -/
def readFile (wf : WatchedFile) (content : List Nat) :
    Option (List LogEntry × WatchedFile) :=
  match drainGo wf.paths wf.entryBuf [] (content.drop wf.pos) with
  | none => none
  | some r => some (r.1, { wf with pos := content.length, entryBuf := r.2 })

/-! ### Specification-side helper functions

These are derived views of a record history / byte stream, used to state
the theorems; they are not part of the source model. -/

/-- First-occurrence deduplication (worker). -/
def firstDedupAux {α : Type} [DecidableEq α] (seen : List α) : List α → List α
  | [] => []
  | a :: t =>
    if a ∈ seen then firstDedupAux seen t else a :: firstDedupAux (a :: seen) t

/-- First-occurrence deduplication, preserving order. -/
def firstDedup {α : Type} [DecidableEq α] (l : List α) : List α :=
  firstDedupAux [] l

/-- The fingerprint of a record. -/
def hashOf (r : LogEntry) : List Nat := Database.hash r.metadata

/-- The records of a history whose metadata contains `kv`. -/
def matching (R : List LogEntry) (kv : List Nat × List Nat) : List LogEntry :=
  R.filter (fun r => r.metadata.contains kv)

/-- The records of a history stored in the shard of fingerprint `f`, in
insertion order. -/
def shardOf (R : List LogEntry) (f : List Nat) : List LogEntry :=
  R.filter (fun r => hashOf r == f)

/-- The fingerprints of a history, in shard-creation order. -/
def hashes (R : List LogEntry) : List (List Nat) :=
  firstDedup (R.map hashOf)

/-- The fingerprint set the index associates to `kv`, in insertion
order. -/
def keysSpec (R : List LogEntry) (kv : List Nat × List Nat) : List (List Nat) :=
  firstDedup ((matching R kv).map hashOf)

/-- The metadata map persisted in shard `f`'s sidecar: the metadata of
the record that created the shard. -/
def metaOfShard (R : List LogEntry) (f : List Nat) : List (List Nat × List Nat) :=
  ((shardOf R f).head?.map LogEntry.metadata).getD []

/-- Data-file bytes of a list of lines: the lines separated by single
separator bytes. -/
def joinSep : List (List Nat) → List Nat
  | [] => []
  | [l] => l
  | l :: ls => l ++ DATA_FILE_RECORD_SEPARATOR :: joinSep ls

/-- The list a query is expected to return: shard by shard in index-set
order, inside each shard in insertion order. -/
def querySpecLines (R : List LogEntry) (kv : List Nat × List Nat) : List (List Nat) :=
  (keysSpec R kv).flatMap (fun f => (shardOf R f).map LogEntry.line)

/-- A line the store round-trips intact: nonempty, free of the record
separator, valid UTF-8. -/
def goodLine (l : List Nat) : Prop :=
  l ≠ [] ∧ DATA_FILE_RECORD_SEPARATOR ∉ l ∧ validUtf8 l = true

/-- Hash injectivity over a history, up to metadata membership: records
whose metadata maps collide carry the same set of `(key, value)` pairs. -/
def hashInjOn (R : List LogEntry) : Prop :=
  ∀ r ∈ R, ∀ r' ∈ R, hashOf r = hashOf r' →
    (∀ kv ∈ r.metadata, kv ∈ r'.metadata) ∧ ∀ kv ∈ r'.metadata, kv ∈ r.metadata

instance (l : List Nat) : Decidable (goodLine l) := by
  unfold goodLine
  infer_instance

instance (R : List LogEntry) : Decidable (hashInjOn R) := by
  unfold hashInjOn
  infer_instance

/-- Newline-split of a byte stream (worker): completed lines (newline
stripped) and the trailing fragment. -/
def splitNlGo (buf : List Nat) : List Nat → List (List Nat) × List Nat
  | [] => ([], buf)
  | b :: bs =>
    if b = 10 then
      let r := splitNlGo [] bs
      (buf :: r.1, r.2)
    else splitNlGo (buf ++ [b]) bs

/-- Newline-split of a byte stream: completed lines and trailing
fragment. -/
def splitNl (l : List Nat) : List (List Nat) × List Nat := splitNlGo [] l

/-- The index entry the store is expected to hold for `kv` after the
history `R`: absent when no record carries `kv`, otherwise the
fingerprints of the carrying records in first-occurrence order. -/
def idxSpec (R : List LogEntry) (kv : List Nat × List Nat) :
    Option (List (List Nat)) :=
  if matching R kv = [] then none else some (keysSpec R kv)

/-- The state invariant tying a store to the history of records written
into it (starting from a store opened on an empty directory). -/
def DbInv (R : List LogEntry) (db : Database) : Prop :=
  db.files = (hashes R).map
      (fun f => (f, joinSep ((shardOf R f).map LogEntry.line))) ∧
    db.jsons = (hashes R).map (fun f => (f, metaOfShard R f)) ∧
    ∀ kv, alGet db.index kv = idxSpec R kv

/-- A directory entry `Database::open` rejects with a store-format error:
not a regular `dat`/`json` file. -/
def badEntry (e : DirEntry) : Prop :=
  (e.ext ≠ some datExt ∧ e.ext ≠ some jsonExt) ∨ e.isFile = false

/-- A directory entry `Database::open` accepts: a regular `dat`/`json`
file with a present, valid-UTF-8 stem whose metadata parses when it is a
`json` file. -/
def goodEntry (e : DirEntry) : Prop :=
  (e.ext = some datExt ∨ e.ext = some jsonExt) ∧ e.isFile = true ∧
    e.stem.isSome = true ∧ validUtf8 (e.stem.getD []) = true ∧
    (e.ext = some jsonExt → e.meta.isSome = true)

instance (e : DirEntry) : Decidable (badEntry e) := by
  unfold badEntry
  infer_instance

instance (e : DirEntry) : Decidable (goodEntry e) := by
  unfold goodEntry
  infer_instance

/-! ### Basic lemmas on the association-list and dedup helpers -/

theorem alGet_alSet {α β : Type} [DecidableEq α] (l : List (α × β)) (k : α) (v : β)
    (k' : α) : alGet (alSet l k v) k' = if k = k' then some v else alGet l k' := by
  induction l with
  | nil => simp [alSet, alGet]
  | cons a t ih =>
    obtain ⟨a1, a2⟩ := a
    simp only [alSet]
    by_cases h : a1 = k
    · subst h
      simp only [if_pos rfl, alGet]
      by_cases h' : a1 = k' <;> simp [h']
    · simp only [if_neg h, alGet, ih]
      by_cases h' : a1 = k'
      · subst h'
        have hk : ¬ a1 = k := h
        have hk2 : ¬ k = a1 := fun he => h he.symm
        simp [hk2]
      · simp [h']

theorem mem_firstDedupAux {α : Type} [DecidableEq α] (seen : List α) (l : List α)
    (x : α) : x ∈ firstDedupAux seen l ↔ x ∈ l ∧ x ∉ seen := by
  induction l generalizing seen with
  | nil => simp [firstDedupAux]
  | cons a t ih =>
    simp only [firstDedupAux]
    by_cases h : a ∈ seen
    · rw [if_pos h, ih]
      constructor
      · rintro ⟨hx, hs⟩
        exact ⟨List.mem_cons_of_mem _ hx, hs⟩
      · rintro ⟨hx, hs⟩
        rcases List.mem_cons.mp hx with rfl | hx
        · exact absurd h hs
        · exact ⟨hx, hs⟩
    · rw [if_neg h]
      constructor
      · intro hx
        rcases List.mem_cons.mp hx with rfl | hx
        · exact ⟨List.mem_cons_self _ _, h⟩
        · obtain ⟨h1, h2⟩ := (ih _).mp hx
          exact ⟨List.mem_cons_of_mem _ h1,
            fun hs => h2 (List.mem_cons_of_mem _ hs)⟩
      · rintro ⟨hx, hs⟩
        rcases List.mem_cons.mp hx with rfl | hx
        · exact List.mem_cons_self _ _
        · by_cases hxa : x = a
          · subst hxa
            exact List.mem_cons_self _ _
          · refine List.mem_cons_of_mem _ ((ih _).mpr ⟨hx, fun hmem => ?_⟩)
            rcases List.mem_cons.mp hmem with h' | h'
            · exact hxa h'
            · exact hs h'

theorem firstDedupAux_append {α : Type} [DecidableEq α] (seen : List α) (l : List α)
    (a : α) : firstDedupAux seen (l ++ [a]) =
      if a ∈ seen ∨ a ∈ l then firstDedupAux seen l
      else firstDedupAux seen l ++ [a] := by
  induction l generalizing seen with
  | nil => by_cases h : a ∈ seen <;> simp [firstDedupAux, h]
  | cons b t ih =>
    simp only [List.cons_append, firstDedupAux, List.append_eq]
    by_cases hb : b ∈ seen
    · rw [if_pos hb, if_pos hb, ih]
      by_cases ha1 : a ∈ seen
      · simp [ha1]
      · by_cases ha2 : a ∈ t
        · simp [ha1, ha2, List.mem_cons]
        · by_cases hab : a = b
          · subst hab
            exact absurd hb ha1
          · simp [ha1, ha2, hab, List.mem_cons]
    · rw [if_neg hb, if_neg hb, ih]
      by_cases hab : a = b
      · subst hab
        simp [List.mem_cons]
      · by_cases ha1 : a ∈ b :: seen
        · have ha1' : a ∈ seen := by
            rcases List.mem_cons.mp ha1 with h' | h'
            · exact absurd h' hab
            · exact h'
          simp [ha1, ha1', List.mem_cons]
        · have ha1' : a ∉ seen := fun hc => ha1 (List.mem_cons_of_mem _ hc)
          by_cases ha2 : a ∈ t
          · simp [ha1, ha1', ha2, List.mem_cons]
          · simp [ha1, ha1', ha2, hab, List.mem_cons]

theorem firstDedup_append {α : Type} [DecidableEq α] (l : List α) (a : α) :
    firstDedup (l ++ [a]) = if a ∈ l then firstDedup l else firstDedup l ++ [a] := by
  simp [firstDedup, firstDedupAux_append]

theorem mem_firstDedup {α : Type} [DecidableEq α] (l : List α) (x : α) :
    x ∈ firstDedup l ↔ x ∈ l := by
  rw [firstDedup, mem_firstDedupAux]
  simp

theorem firstDedupAux_nodup {α : Type} [DecidableEq α] (seen : List α) (l : List α) :
    (firstDedupAux seen l).Nodup := by
  induction l generalizing seen with
  | nil => simp [firstDedupAux]
  | cons a t ih =>
    by_cases h : a ∈ seen
    · simpa [firstDedupAux, h] using ih seen
    · simp only [firstDedupAux, if_neg h, List.nodup_cons]
      refine ⟨fun hc => ?_, ih (a :: seen)⟩
      exact ((mem_firstDedupAux _ _ _).mp hc).2 (List.mem_cons_self _ _)

theorem firstDedup_nodup {α : Type} [DecidableEq α] (l : List α) :
    (firstDedup l).Nodup := firstDedupAux_nodup [] l

theorem alGet_append_none {α β : Type} [DecidableEq α] (l1 l2 : List (α × β))
    (k : α) (h : alGet l1 k = none) : alGet (l1 ++ l2) k = alGet l2 k := by
  induction l1 with
  | nil => simp
  | cons a t ih =>
    obtain ⟨a1, a2⟩ := a
    by_cases ha : a1 = k
    · simp [alGet, ha] at h
    · simp only [alGet, if_neg ha] at h
      simpa [alGet, ha] using ih h

theorem alSet_not_mem {α β : Type} [DecidableEq α] (l : List (α × β)) (k : α)
    (v : β) (h : alGet l k = none) : alSet l k v = l ++ [(k, v)] := by
  induction l with
  | nil => simp [alSet]
  | cons a t ih =>
    obtain ⟨a1, a2⟩ := a
    by_cases ha : a1 = k
    · simp [alGet, ha] at h
    · simp only [alGet, if_neg ha] at h
      simp [alSet, ha, ih h]

theorem alGet_map_self {β : Type} (g : List Nat → β) (ks : List (List Nat))
    (hnd : ks.Nodup) (f : List Nat) :
    alGet (ks.map (fun x => (x, g x))) f = if f ∈ ks then some (g f) else none := by
  induction ks with
  | nil => simp [alGet]
  | cons k t ih =>
    simp only [List.map_cons, alGet]
    by_cases hk : k = f
    · subst hk
      simp
    · have hnt : t.Nodup := (List.nodup_cons.mp hnd).2
      rw [if_neg hk, ih hnt]
      by_cases hf : f ∈ t
      · simp [hf, List.mem_cons, Ne.symm hk]
      · have : f ∉ k :: t := by
          intro hc
          rcases List.mem_cons.mp hc with h' | h'
          · exact hk h'.symm
          · exact hf h'
        simp [hf, this]

theorem alSet_map_mem {β : Type} (g : List Nat → β) (ks : List (List Nat))
    (k : List Nat) (v : β) (hnd : ks.Nodup) (hk : k ∈ ks) :
    alSet (ks.map (fun x => (x, g x))) k v =
      ks.map (fun x => (x, if x = k then v else g x)) := by
  induction ks with
  | nil => exact absurd hk (List.not_mem_nil _)
  | cons a t ih =>
    simp only [List.map_cons, alSet]
    obtain ⟨hna, hnt⟩ := List.nodup_cons.mp hnd
    by_cases ha : a = k
    · subst ha
      simp only [if_pos rfl]
      have : t.map (fun x => (x, if x = a then v else g x)) =
          t.map (fun x => (x, g x)) := by
        refine List.map_eq_map_iff.mpr (fun x hx => ?_)
        have : ¬ x = a := fun hc => hna (hc ▸ hx)
        simp [this]
      rw [this]
      simp
    · have hkt : k ∈ t := by
        rcases List.mem_cons.mp hk with h' | h'
        · exact absurd h'.symm ha
        · exact h'
      rw [if_neg ha, ih hnt hkt, if_neg ha]

theorem addKey_idem (key : List Nat) (ks : List (List Nat)) :
    addKey key (addKey key ks) = addKey key ks := by
  unfold addKey
  by_cases h : key ∈ ks
  · simp [h]
  · simp [h]

theorem alGet_indexWith (key : List Nat) (m : List (List Nat × List Nat))
    (ix : List ((List Nat × List Nat) × List (List Nat)))
    (kv : List Nat × List Nat) :
    alGet (indexWith key m ix) kv =
      if kv ∈ m then some (addKey key ((alGet ix kv).getD []))
      else alGet ix kv := by
  induction m generalizing ix with
  | nil => simp [indexWith]
  | cons a t ih =>
    have hstep : indexWith key (a :: t) ix =
        indexWith key t (alSet ix a (addKey key ((alGet ix a).getD []))) := rfl
    rw [hstep, ih]
    by_cases hat : kv ∈ t
    · rw [if_pos hat, if_pos (List.mem_cons_of_mem _ hat), alGet_alSet]
      by_cases hak : a = kv
      · subst hak
        simp [addKey_idem]
      · rw [if_neg hak]
    · rw [if_neg hat, alGet_alSet]
      by_cases hak : a = kv
      · subst hak
        rw [if_pos (List.mem_cons_self _ _)]
        simp
      · rw [if_neg hak, if_neg]
        intro hc
        rcases List.mem_cons.mp hc with h' | h'
        · exact hak h'.symm
        · exact hat h'

/-! ### History append lemmas -/

theorem matching_append (R : List LogEntry) (r : LogEntry)
    (kv : List Nat × List Nat) :
    matching (R ++ [r]) kv =
      matching R kv ++ if kv ∈ r.metadata then [r] else [] := by
  by_cases h : kv ∈ r.metadata
  · have hc : r.metadata.contains kv = true := List.elem_iff.mpr h
    simp [matching, List.filter_append, hc, h]
  · have hc : ¬ r.metadata.contains kv = true := fun hcc => h (List.elem_iff.mp hcc)
    simp [matching, List.filter_append, hc, h]

theorem shardOf_append (R : List LogEntry) (r : LogEntry) (f : List Nat) :
    shardOf (R ++ [r]) f = shardOf R f ++ if hashOf r = f then [r] else [] := by
  by_cases h : hashOf r = f
  · have hb : (hashOf r == f) = true := beq_iff_eq.mpr h
    simp [shardOf, List.filter_append, hb, h]
  · have hb : ¬ (hashOf r == f) = true := fun hc => h (beq_iff_eq.mp hc)
    simp [shardOf, List.filter_append, hb, h]

theorem hashes_append (R : List LogEntry) (r : LogEntry) :
    hashes (R ++ [r]) =
      if hashOf r ∈ hashes R then hashes R else hashes R ++ [hashOf r] := by
  simp [hashes, List.map_append, firstDedup_append, mem_firstDedup]

theorem keysSpec_append (R : List LogEntry) (r : LogEntry)
    (kv : List Nat × List Nat) :
    keysSpec (R ++ [r]) kv =
      if kv ∈ r.metadata then addKey (hashOf r) (keysSpec R kv)
      else keysSpec R kv := by
  by_cases h : kv ∈ r.metadata
  · rw [if_pos h]
    unfold keysSpec addKey
    rw [matching_append, if_pos h, List.map_append, List.map_cons, List.map_nil,
      firstDedup_append]
    simp [mem_firstDedup]
  · rw [if_neg h]
    unfold keysSpec
    rw [matching_append, if_neg h, List.append_nil]

theorem mem_shardOf_self (R : List LogEntry) (r : LogEntry) (h : r ∈ R) :
    r ∈ shardOf R (hashOf r) := by
  exact List.mem_filter.mpr ⟨h, beq_iff_eq.mpr rfl⟩

theorem shardOf_ne_nil (R : List LogEntry) (f : List Nat) (h : f ∈ hashes R) :
    shardOf R f ≠ [] := by
  rw [hashes, mem_firstDedup] at h
  obtain ⟨r, hr, hf⟩ := List.mem_map.mp h
  subst hf
  exact List.ne_nil_of_mem (mem_shardOf_self R r hr)

theorem shardOf_eq_nil (R : List LogEntry) (f : List Nat) (h : f ∉ hashes R) :
    shardOf R f = [] := by
  refine List.filter_eq_nil_iff.mpr (fun r hr hc => ?_)
  have : hashOf r = f := beq_iff_eq.mp hc
  subst this
  exact h ((mem_firstDedup _ _).mpr (List.mem_map_of_mem _ hr))

theorem metaOfShard_append (R : List LogEntry) (r : LogEntry) (f : List Nat) :
    metaOfShard (R ++ [r]) f =
      if shardOf R f = []
      then (if hashOf r = f then r.metadata else [])
      else metaOfShard R f := by
  unfold metaOfShard
  rw [shardOf_append]
  by_cases hs : shardOf R f = []
  · rw [if_pos hs, hs, List.nil_append]
    by_cases hf : hashOf r = f <;> simp [hf]
  · rw [if_neg hs]
    obtain ⟨x, t, hxt⟩ := List.exists_cons_of_ne_nil hs
    rw [hxt]
    simp

theorem joinSep_append (ls : List (List Nat)) (l : List Nat) (h : ls ≠ []) :
    joinSep (ls ++ [l]) = joinSep ls ++ DATA_FILE_RECORD_SEPARATOR :: l := by
  induction ls with
  | nil => exact absurd rfl h
  | cons x t ih =>
    cases t with
    | nil => simp [joinSep]
    | cons y t2 =>
      have hne : y :: t2 ≠ [] := by simp
      calc joinSep ((x :: y :: t2) ++ [l])
          = x ++ DATA_FILE_RECORD_SEPARATOR :: joinSep ((y :: t2) ++ [l]) := by
            simp [joinSep]
        _ = x ++ DATA_FILE_RECORD_SEPARATOR :: (joinSep (y :: t2) ++
              DATA_FILE_RECORD_SEPARATOR :: l) := by rw [ih hne]
        _ = joinSep (x :: y :: t2) ++ DATA_FILE_RECORD_SEPARATOR :: l := by
            simp [joinSep]

/-! ### The write invariant -/

theorem index_step (R : List LogEntry) (r : LogEntry)
    (ix : List ((List Nat × List Nat) × List (List Nat)))
    (hi : ∀ kv, alGet ix kv = idxSpec R kv) (kv : List Nat × List Nat) :
    alGet (indexWith (hashOf r) r.metadata ix) kv = idxSpec (R ++ [r]) kv := by
  rw [alGet_indexWith, hi kv]
  by_cases hkv : kv ∈ r.metadata
  · rw [if_pos hkv]
    unfold idxSpec
    rw [matching_append, if_pos hkv]
    have hne : ¬ matching R kv ++ [r] = [] := by simp
    rw [if_neg hne, keysSpec_append, if_pos hkv]
    by_cases hm : matching R kv = []
    · rw [if_pos hm]
      have hks : keysSpec R kv = [] := by
        unfold keysSpec
        rw [hm]
        rfl
      rw [hks]
      rfl
    · rw [if_neg hm]
      rfl
  · rw [if_neg hkv]
    unfold idxSpec
    rw [matching_append, if_neg hkv, List.append_nil, keysSpec_append, if_neg hkv]

theorem hashes_nodup (R : List LogEntry) : (hashes R).Nodup :=
  firstDedup_nodup _

theorem DbInv_write (R : List LogEntry) (r : LogEntry) (db : Database)
    (h : DbInv R db) : DbInv (R ++ [r]) (db.write r) := by
  obtain ⟨hf, hj, hi⟩ := h
  by_cases hmem : hashOf r ∈ hashes R
  · have hfl : alGet db.files (hashOf r) =
        some (joinSep ((shardOf R (hashOf r)).map LogEntry.line)) := by
      rw [hf, alGet_map_self (fun f => joinSep ((shardOf R f).map LogEntry.line))
        (hashes R) (hashes_nodup R) (hashOf r), if_pos hmem]
    have hw : db.write r =
        { files := alSet db.files (hashOf r)
            (joinSep ((shardOf R (hashOf r)).map LogEntry.line) ++
              DATA_FILE_RECORD_SEPARATOR :: r.line),
          jsons := db.jsons,
          index := indexWith (hashOf r) r.metadata db.index } := by
      unfold Database.write
      simp only [show Database.hash r.metadata = hashOf r from rfl, hfl]
    refine ⟨?_, ?_, ?_⟩
    · rw [hw]
      dsimp only
      rw [hf, alSet_map_mem _ _ _ _ (hashes_nodup R) hmem,
        hashes_append, if_pos hmem]
      refine List.map_eq_map_iff.mpr (fun f hfm => ?_)
      simp only [Prod.mk.injEq, true_and]
      by_cases hfr : f = hashOf r
      · subst hfr
        rw [if_pos rfl, shardOf_append, if_pos rfl]
        simp only [List.map_append, List.map_cons, List.map_nil]
        rw [joinSep_append _ _ (fun hc =>
          shardOf_ne_nil R (hashOf r) hfm (List.map_eq_nil_iff.mp hc))]
      · rw [if_neg hfr, shardOf_append,
          if_neg (fun he => hfr he.symm), List.append_nil]
    · rw [hw]
      dsimp only
      rw [hj, hashes_append, if_pos hmem]
      refine List.map_eq_map_iff.mpr (fun f hfm => ?_)
      simp only [Prod.mk.injEq, true_and]
      rw [metaOfShard_append, if_neg (shardOf_ne_nil R f hfm)]
    · intro kv
      rw [hw]
      dsimp only
      exact index_step R r db.index hi kv
  · have hfl : alGet db.files (hashOf r) = none := by
      rw [hf, alGet_map_self (fun f => joinSep ((shardOf R f).map LogEntry.line))
        (hashes R) (hashes_nodup R) (hashOf r), if_neg hmem]
    have hsh : shardOf R (hashOf r) = [] := shardOf_eq_nil R _ hmem
    have hw : db.write r =
        { files := alSet db.files (hashOf r) r.line,
          jsons := alSet db.jsons (hashOf r) r.metadata,
          index := indexWith (hashOf r) r.metadata db.index } := by
      unfold Database.write
      simp only [show Database.hash r.metadata = hashOf r from rfl, hfl]
    refine ⟨?_, ?_, ?_⟩
    · rw [hw]
      dsimp only
      have hnone : alGet ((hashes R).map
          (fun f => (f, joinSep ((shardOf R f).map LogEntry.line)))) (hashOf r) =
          none := by
        rw [alGet_map_self (fun f => joinSep ((shardOf R f).map LogEntry.line))
          (hashes R) (hashes_nodup R) (hashOf r), if_neg hmem]
      rw [hf, alSet_not_mem _ _ _ hnone, hashes_append, if_neg hmem,
        List.map_append]
      congr 1
      · refine List.map_eq_map_iff.mpr (fun f hfm => ?_)
        simp only [Prod.mk.injEq, true_and]
        rw [shardOf_append, if_neg (fun he => hmem (by rw [he]; exact hfm)),
          List.append_nil]
      · have hsh2 : shardOf (R ++ [r]) (hashOf r) = [r] := by
          rw [shardOf_append, if_pos rfl, hsh, List.nil_append]
        simp [hsh2, joinSep]
    · rw [hw]
      dsimp only
      have hnone : alGet ((hashes R).map (fun f => (f, metaOfShard R f)))
          (hashOf r) = none := by
        rw [alGet_map_self (fun f => metaOfShard R f) (hashes R)
          (hashes_nodup R) (hashOf r), if_neg hmem]
      rw [hj, alSet_not_mem _ _ _ hnone, hashes_append, if_neg hmem,
        List.map_append]
      congr 1
      · refine List.map_eq_map_iff.mpr (fun f hfm => ?_)
        simp only [Prod.mk.injEq, true_and]
        rw [metaOfShard_append, if_neg (shardOf_ne_nil R f hfm)]
      · have hms : metaOfShard (R ++ [r]) (hashOf r) = r.metadata := by
          rw [metaOfShard_append, if_pos hsh, if_pos rfl]
        simp [hms]
    · intro kv
      rw [hw]
      dsimp only
      exact index_step R r db.index hi kv

theorem DbInv_emptyDb : DbInv [] emptyDb := by
  refine ⟨rfl, rfl, fun kv => ?_⟩
  simp [emptyDb, alGet, idxSpec, matching]

theorem DbInv_foldl (S H : List LogEntry) (db : Database) (h : DbInv H db) :
    DbInv (H ++ S) (S.foldl Database.write db) := by
  induction S generalizing H db with
  | nil => simpa using h
  | cons r S ih =>
    have h2 := ih (H ++ [r]) (db.write r) (DbInv_write H r db h)
    rw [List.append_assoc] at h2
    simpa using h2

theorem DbInv_writeAll (R : List LogEntry) : DbInv R (writeAll R) := by
  have := DbInv_foldl R [] emptyDb DbInv_emptyDb
  simpa [writeAll] using this

/-! ### Read and query characterization -/

theorem flatMap_congr_mem {α β : Type} (l : List α) (f g : α → List β)
    (h : ∀ x ∈ l, f x = g x) : l.flatMap f = l.flatMap g := by
  induction l with
  | nil => rfl
  | cons a t ih =>
    have ha := h a (List.mem_cons_self _ _)
    have ht := ih (fun x hx => h x (List.mem_cons_of_mem _ hx))
    simp only [List.flatMap_cons, ha, ht]

theorem readChunksGo_shift (l : List Nat)
    (h : DATA_FILE_RECORD_SEPARATOR ∉ l) (cur rest : List Nat) :
    readChunksGo cur (l ++ rest) = readChunksGo (cur ++ l) rest := by
  induction l generalizing cur with
  | nil => simp
  | cons b t ih =>
    have hb : ¬ b = DATA_FILE_RECORD_SEPARATOR :=
      fun hc => h (by simp [hc])
    have ht : DATA_FILE_RECORD_SEPARATOR ∉ t :=
      fun hc => h (List.mem_cons_of_mem _ hc)
    calc readChunksGo cur ((b :: t) ++ rest)
        = readChunksGo (cur ++ [b]) (t ++ rest) := by
          simp [readChunksGo, hb]
      _ = readChunksGo ((cur ++ [b]) ++ t) rest := ih ht (cur ++ [b])
      _ = readChunksGo (cur ++ b :: t) rest := by simp

theorem readChunks_joinSep (ls : List (List Nat)) (hne : ls ≠ [])
    (h : ∀ l ∈ ls, l ≠ [] ∧ DATA_FILE_RECORD_SEPARATOR ∉ l) :
    readChunks (joinSep ls) = ls := by
  induction ls with
  | nil => exact absurd rfl hne
  | cons x t ih =>
    obtain ⟨hx1, hx2⟩ := h x (List.mem_cons_self _ _)
    cases t with
    | nil =>
      unfold readChunks
      calc readChunksGo [] (joinSep [x])
          = readChunksGo [] (x ++ []) := by simp [joinSep]
        _ = readChunksGo ([] ++ x) [] := readChunksGo_shift x hx2 [] []
        _ = [x] := by
            cases x with
            | nil => exact absurd rfl hx1
            | cons a as => simp [readChunksGo]
    | cons y t2 =>
      unfold readChunks
      calc readChunksGo [] (joinSep (x :: y :: t2))
          = readChunksGo [] (x ++ DATA_FILE_RECORD_SEPARATOR :: joinSep (y :: t2)) := by
            simp [joinSep]
        _ = readChunksGo ([] ++ x) (DATA_FILE_RECORD_SEPARATOR :: joinSep (y :: t2)) :=
            readChunksGo_shift x hx2 [] _
        _ = x :: readChunksGo [] (joinSep (y :: t2)) := by
            simp [readChunksGo]
        _ = x :: (y :: t2) := by
            rw [show readChunksGo [] (joinSep (y :: t2)) = readChunks (joinSep (y :: t2))
              from rfl]
            rw [ih (by simp) (fun l hl => h l (List.mem_cons_of_mem _ hl))]

theorem read_spec (R : List LogEntry) (db : Database) (hInv : DbInv R db)
    (hlines : ∀ r ∈ R, goodLine r.line) (f : List Nat) (hf : f ∈ hashes R) :
    db.read f = Except.ok (some ((shardOf R f).map LogEntry.line)) := by
  have hget : alGet db.files f =
      some (joinSep ((shardOf R f).map LogEntry.line)) := by
    rw [hInv.1, alGet_map_self (fun f => joinSep ((shardOf R f).map LogEntry.line))
      (hashes R) (hashes_nodup R) f, if_pos hf]
  have hgood : ∀ l ∈ (shardOf R f).map LogEntry.line,
      l ≠ [] ∧ DATA_FILE_RECORD_SEPARATOR ∉ l := by
    intro l hl
    obtain ⟨r, hr, hrl⟩ := List.mem_map.mp hl
    have hrR : r ∈ R := (List.mem_filter.mp hr).1
    obtain ⟨g1, g2, _⟩ := hlines r hrR
    exact ⟨hrl ▸ g1, hrl ▸ g2⟩
  have hrc : readChunks (joinSep ((shardOf R f).map LogEntry.line)) =
      (shardOf R f).map LogEntry.line :=
    readChunks_joinSep _
      (fun hc => shardOf_ne_nil R f hf (List.map_eq_nil_iff.mp hc)) hgood
  have hall : ((shardOf R f).map LogEntry.line).all validUtf8 = true := by
    refine List.all_eq_true.mpr (fun l hl => ?_)
    obtain ⟨r, hr, hrl⟩ := List.mem_map.mp hl
    have hrR : r ∈ R := (List.mem_filter.mp hr).1
    exact hrl ▸ (hlines r hrR).2.2
  unfold Database.read
  rw [hget]
  dsimp only
  rw [hrc, if_pos hall]

theorem queryLoop_spec (db : Database) (keys : List (List Nat))
    (L : List Nat → List (List Nat))
    (h : ∀ f ∈ keys, db.read f = Except.ok (some (L f))) :
    queryLoop db keys = Except.ok (keys.flatMap L) := by
  induction keys with
  | nil => rfl
  | cons f t ih =>
    have hf := h f (List.mem_cons_self _ _)
    have ht := ih (fun g hg => h g (List.mem_cons_of_mem _ hg))
    simp [queryLoop, hf, ht]

theorem keysSpec_subset_hashes (R : List LogEntry) (kv : List Nat × List Nat)
    (f : List Nat) (h : f ∈ keysSpec R kv) : f ∈ hashes R := by
  rw [keysSpec, mem_firstDedup] at h
  obtain ⟨r, hr, hf⟩ := List.mem_map.mp h
  rw [hashes, mem_firstDedup]
  exact hf ▸ List.mem_map_of_mem _ (List.mem_filter.mp hr).1

/-! ### Grouping a history by fingerprint (for the exactness of queries) -/

theorem group_perm_aux (M : List LogEntry) : ∀ seen : List (List Nat),
    ((firstDedupAux seen (M.map hashOf)).flatMap
        (fun f => M.filter (fun r => hashOf r == f))).Perm
      (M.filter (fun r => !(seen.contains (hashOf r)))) := by
  induction M with
  | nil =>
    intro seen
    simp [firstDedupAux]
  | cons r M ih =>
    intro seen
    by_cases hs : hashOf r ∈ seen
    · have hsc : seen.contains (hashOf r) = true := List.elem_iff.mpr hs
      have e1 : firstDedupAux seen ((r :: M).map hashOf) =
          firstDedupAux seen (M.map hashOf) := by
        simp only [List.map_cons, firstDedupAux]
        rw [if_pos hs]
      have e2 : (r :: M).filter (fun x => !(seen.contains (hashOf x))) =
          M.filter (fun x => !(seen.contains (hashOf x))) := by
        rw [List.filter_cons, hsc]
        simp
      rw [e1, e2]
      have hbody : ∀ f ∈ firstDedupAux seen (M.map hashOf),
          (r :: M).filter (fun x => hashOf x == f) =
            M.filter (fun x => hashOf x == f) := by
        intro f hfm
        have hf : f ∉ seen := ((mem_firstDedupAux _ _ _).mp hfm).2
        have hne : ¬ (hashOf r == f) = true :=
          fun hc => hf (beq_iff_eq.mp hc ▸ hs)
        simp [List.filter_cons, hne]
      rw [flatMap_congr_mem _ _ _ hbody]
      exact ih seen
    · have hsc : seen.contains (hashOf r) = false := by
        cases hcv : seen.contains (hashOf r)
        · rfl
        · exact absurd (List.elem_iff.mp hcv) hs
      have e1 : firstDedupAux seen ((r :: M).map hashOf) =
          hashOf r :: firstDedupAux (hashOf r :: seen) (M.map hashOf) := by
        simp only [List.map_cons, firstDedupAux]
        rw [if_neg hs]
      rw [e1]
      simp only [List.flatMap_cons]
      have hbody : ∀ f ∈ firstDedupAux (hashOf r :: seen) (M.map hashOf),
          (r :: M).filter (fun x => hashOf x == f) =
            M.filter (fun x => hashOf x == f) := by
        intro f hfm
        have hf : f ∉ hashOf r :: seen := ((mem_firstDedupAux _ _ _).mp hfm).2
        have hne : ¬ (hashOf r == f) = true :=
          fun hc => hf (beq_iff_eq.mp hc ▸ List.mem_cons_self _ _)
        simp [List.filter_cons, hne]
      rw [flatMap_congr_mem _ _ _ hbody]
      have e2 : (r :: M).filter (fun x => hashOf x == hashOf r) =
          r :: M.filter (fun x => hashOf x == hashOf r) := by
        simp [List.filter_cons]
      have e3 : (r :: M).filter (fun x => !(seen.contains (hashOf x))) =
          r :: M.filter (fun x => !(seen.contains (hashOf x))) := by
        rw [List.filter_cons, hsc]
        simp
      rw [e2, e3, List.cons_append]
      refine List.Perm.cons r ?_
      refine (List.Perm.append_left _ (ih (hashOf r :: seen))).trans ?_
      have hpart := List.filter_append_perm (fun x => hashOf x == hashOf r)
        (M.filter (fun x => !(seen.contains (hashOf x))))
      have hA : (M.filter (fun x => !(seen.contains (hashOf x)))).filter
            (fun x => hashOf x == hashOf r) =
          M.filter (fun x => hashOf x == hashOf r) := by
        rw [List.filter_filter]
        refine List.filter_congr (fun x hx => ?_)
        by_cases hc : hashOf x = hashOf r
        · rw [hc, hsc]
          simp
        · have hb : (hashOf x == hashOf r) = false := beq_eq_false_iff_ne.mpr hc
          rw [hb]
          simp
      have hB : (M.filter (fun x => !(seen.contains (hashOf x)))).filter
            (fun x => !(hashOf x == hashOf r)) =
          M.filter (fun x => !((hashOf r :: seen).contains (hashOf x))) := by
        rw [List.filter_filter]
        refine List.filter_congr (fun x hx => ?_)
        show (!(hashOf x == hashOf r) && !(seen.contains (hashOf x))) =
          !((hashOf r :: seen).contains (hashOf x))
        rw [show ((hashOf r :: seen).contains (hashOf x)) =
          ((hashOf x == hashOf r) || seen.contains (hashOf x)) from rfl]
        rw [Bool.not_or]
      rw [hA, hB] at hpart
      exact hpart

theorem group_perm (M : List LogEntry) :
    ((firstDedup (M.map hashOf)).flatMap
        (fun f => M.filter (fun r => hashOf r == f))).Perm M := by
  have h := group_perm_aux M []
  simpa [firstDedup] using h

/-- C1 (amended): provided every written line is nonempty, free of the
record-separator byte 147 and valid UTF-8, and records whose metadata
maps collide under the fingerprint carry the same set of entries, then
after writing `R` into a store opened on an empty directory,
`query(k, v)` (for any `(k, v)` carried by some written record) succeeds
and returns shard by shard, in index-set order and within a shard in
insertion order, a permutation of exactly the lines of the records whose
metadata contains `(k, v)`. -/
theorem database_query_exact (R : List LogEntry) (k v : List Nat)
    (hinj : hashInjOn R) (hlines : ∀ r ∈ R, goodLine r.line)
    (hkv : ∃ r ∈ R, (k, v) ∈ r.metadata) :
    (writeAll R).query k v = Except.ok (some (querySpecLines R (k, v))) ∧
      (querySpecLines R (k, v)).Perm ((matching R (k, v)).map LogEntry.line) := by
  have hInv := DbInv_writeAll R
  have hm : ¬ matching R (k, v) = [] := by
    obtain ⟨r, hr, hmem⟩ := hkv
    exact List.ne_nil_of_mem (List.mem_filter.mpr ⟨hr, List.elem_iff.mpr hmem⟩)
  constructor
  · have hidx : alGet (writeAll R).index (k, v) = some (keysSpec R (k, v)) := by
      rw [hInv.2.2 (k, v)]
      unfold idxSpec
      rw [if_neg hm]
    have hql : queryLoop (writeAll R) (keysSpec R (k, v)) =
        Except.ok ((keysSpec R (k, v)).flatMap
          (fun f => (shardOf R f).map LogEntry.line)) :=
      queryLoop_spec _ _ _ (fun f hf =>
        read_spec R _ hInv hlines f (keysSpec_subset_hashes R (k, v) f hf))
    unfold Database.query
    rw [hidx]
    dsimp only
    rw [hql]
    rfl
  · have hshard : ∀ f ∈ keysSpec R (k, v),
        shardOf R f = (matching R (k, v)).filter (fun x => hashOf x == f) := by
      intro f hf
      have hf' := hf
      rw [keysSpec, mem_firstDedup] at hf'
      obtain ⟨m, hmm, hmf⟩ := List.mem_map.mp hf'
      obtain ⟨hmR, hmc⟩ := List.mem_filter.mp hmm
      unfold shardOf matching
      rw [List.filter_filter]
      refine List.filter_congr (fun x hx => ?_)
      by_cases hc : hashOf x = f
      · have hbx : (hashOf x == f) = true := beq_iff_eq.mpr hc
        have hmem2 : (k, v) ∈ x.metadata := by
          have hkvm : (k, v) ∈ m.metadata := List.elem_iff.mp hmc
          exact (hinj m hmR x hx (by rw [hmf, ← hc])).1 (k, v) hkvm
        have hbc : x.metadata.contains (k, v) = true := List.elem_iff.mpr hmem2
        rw [hbx, hbc]
        rfl
      · have hbx : (hashOf x == f) = false := beq_eq_false_iff_ne.mpr hc
        rw [hbx]
        rfl
    have e : querySpecLines R (k, v) =
        ((firstDedup ((matching R (k, v)).map hashOf)).flatMap
          (fun f => (matching R (k, v)).filter
            (fun x => hashOf x == f))).map LogEntry.line := by
      unfold querySpecLines
      rw [flatMap_congr_mem (keysSpec R (k, v))
        (fun f => (shardOf R f).map LogEntry.line)
        (fun f => ((matching R (k, v)).filter
          (fun x => hashOf x == f)).map LogEntry.line)
        (fun f hf => by dsimp only; rw [hshard f hf])]
      rw [← List.map_flatMap]
      rfl
    rw [e]
    exact (group_perm (matching R (k, v))).map LogEntry.line

/-- Witness for C1 at a one-record history. -/
theorem database_query_exact_witness :
    hashInjOn [⟨[104, 105], [([97], [98])]⟩] ∧
      (∀ r ∈ ([⟨[104, 105], [([97], [98])]⟩] : List LogEntry), goodLine r.line) ∧
      (∃ r ∈ ([⟨[104, 105], [([97], [98])]⟩] : List LogEntry),
        ([97], [98]) ∈ r.metadata) ∧
      ((writeAll [⟨[104, 105], [([97], [98])]⟩]).query [97] [98] =
          Except.ok (some (querySpecLines [⟨[104, 105], [([97], [98])]⟩]
            ([97], [98]))) ∧
        (querySpecLines [⟨[104, 105], [([97], [98])]⟩] ([97], [98])).Perm
          ((matching [⟨[104, 105], [([97], [98])]⟩] ([97], [98])).map
            LogEntry.line)) :=
  ⟨by decide, by decide, by decide,
    database_query_exact [⟨[104, 105], [([97], [98])]⟩] [97] [98]
      (by decide) (by decide) (by decide)⟩

/-- Counterexample to C1 as stated: writing the single record with the
empty line and metadata `{a: b}` and then querying `(a, b)` returns the
empty list, not the written line — the empty line written first into a
fresh shard produces an empty data file, which reads back as zero
records. -/
theorem database_query_exact_cex :
    (writeAll [⟨[], [([97], [98])]⟩]).query [97] [98] = Except.ok (some []) ∧
      (matching [⟨[], [([97], [98])]⟩] ([97], [98])).map LogEntry.line = [[]] ∧
      ¬ ([] : List (List Nat)) = [[]] :=
  ⟨by decide, by decide, by decide⟩

/-! ### Writes with empty metadata (C10) -/

theorem queryLoop_write_empty (db : Database) (l : List Nat)
    (ks : List (List Nat)) (hk : Database.hash [] ∉ ks) :
    queryLoop (db.write ⟨l, []⟩) ks = queryLoop db ks := by
  induction ks with
  | nil => rfl
  | cons f t ih =>
    have hf : ¬ Database.hash [] = f := fun hc => hk (hc ▸ List.mem_cons_self _ _)
    have ht : Database.hash [] ∉ t := fun hc => hk (List.mem_cons_of_mem _ hc)
    have hfiles : alGet (db.write ⟨l, []⟩).files f = alGet db.files f := by
      unfold Database.write
      cases halg : alGet db.files (Database.hash ([] : List (List Nat × List Nat))) <;>
        simp [halg, alGet_alSet, hf]
    have hread : (db.write ⟨l, []⟩).read f = db.read f := by
      unfold Database.read
      rw [hfiles]
    simp [queryLoop, hread, ih ht]

/-- C10 (amended): writing a record with empty metadata leaves the
inverted index unchanged (the per-entry loop runs zero times) while
appending the line to the all-zero-fingerprint shard; every query whose
index entry does not contain the all-zero fingerprint — in particular
every query, unless some earlier record's metadata already hashed to the
all-zero fingerprint — returns the same result before and after the
write and never returns the new line. -/
theorem write_empty_metadata_frame (db : Database) (l : List Nat) :
    (db.write ⟨l, []⟩).index = db.index ∧
      alGet (db.write ⟨l, []⟩).files (Database.hash []) =
        some (match alGet db.files (Database.hash []) with
              | some c => c ++ DATA_FILE_RECORD_SEPARATOR :: l
              | none => l) ∧
      ∀ k v, Database.hash [] ∉ (alGet db.index (k, v)).getD [] →
        (db.write ⟨l, []⟩).query k v = db.query k v := by
  have hidx : (db.write ⟨l, []⟩).index = db.index := by
    unfold Database.write
    cases halg : alGet db.files (Database.hash ([] : List (List Nat × List Nat))) <;>
      simp [halg, indexWith]
  refine ⟨hidx, ?_, ?_⟩
  · unfold Database.write
    cases halg : alGet db.files (Database.hash ([] : List (List Nat × List Nat))) <;>
      simp [halg, alGet_alSet]
  · intro k v hk
    unfold Database.query
    rw [hidx]
    cases hI : alGet db.index (k, v) with
    | none => rfl
    | some ks =>
      rw [hI] at hk
      dsimp only
      rw [queryLoop_write_empty db l ks hk]

/-- Witness for C10: after one write carrying metadata `{a: b}` (whose
fingerprint is nonzero), a subsequent empty-metadata write changes no
`(a, b)` query. -/
theorem write_empty_metadata_frame_witness :
    (Database.hash [] ∉
        (alGet (writeAll [⟨[120], [([97], [98])]⟩]).index ([97], [98])).getD []) ∧
      ((writeAll [⟨[120], [([97], [98])]⟩]).write ⟨[121], []⟩).query [97] [98] =
        (writeAll [⟨[120], [([97], [98])]⟩]).query [97] [98] :=
  ⟨by decide,
    (write_empty_metadata_frame (writeAll [⟨[120], [([97], [98])]⟩]) [121]).2.2
      [97] [98] (by decide)⟩

/-- Counterexample to C10 as stated: the metadata map
`{a: bc, ab: c}` hashes to the all-zero fingerprint (its two entries
digest the same concatenation `abc` and cancel under XOR), so after
writing record `X` under it, an empty-metadata write of `Y` lands in the
same shard and the query `(a, bc)` changes from `[X]` to `[X, Y]`,
returning the empty-metadata record's line. -/
theorem write_empty_metadata_cex :
    (writeAll [⟨[88], [([97], [98, 99]), ([97, 98], [99])]⟩]).query [97] [98, 99] =
        Except.ok (some [[88]]) ∧
      ((writeAll [⟨[88], [([97], [98, 99]), ([97, 98], [99])]⟩]).write
          ⟨[89], []⟩).query [97] [98, 99] =
        Except.ok (some [[88], [89]]) :=
  ⟨by decide, by decide⟩

/-- Counterexample to C7 as stated: a store opened on a directory whose
data file holds invalid UTF-8 has an index entry for `(a, b)`, yet the
query fails with a corruption error rather than returning a list. -/
theorem query_none_iff_unindexed_cex :
    (match Database.openDir
        [⟨some (Database.hash [([97], [98])]), some datExt, true, [226, 128], none⟩,
         ⟨some (Database.hash [([97], [98])]), some jsonExt, true, [],
           some [([97], [98])]⟩] with
      | Except.ok db => db.query [97] [98]
      | Except.error e => Except.error e) =
      Except.error (DbErr.corrupt (Database.hash [([97], [98])])) ∧
    (match Database.openDir
        [⟨some (Database.hash [([97], [98])]), some datExt, true, [226, 128], none⟩,
         ⟨some (Database.hash [([97], [98])]), some jsonExt, true, [],
           some [([97], [98])]⟩] with
      | Except.ok db => (alGet db.index ([97], [98])).isSome
      | Except.error _ => false) = true :=
  ⟨by decide, by decide⟩

/-! ### Open-time validation (C8) -/

theorem openLoop_cons (acc : Database) (e : DirEntry) (rest : List DirEntry) :
    openLoop acc (e :: rest) =
      (if e.ext ≠ some datExt ∧ e.ext ≠ some jsonExt then
        Except.error (DbErr.invalidFile e.stem e.ext)
      else if ¬ e.isFile then
        Except.error (DbErr.notAFile e.stem e.ext)
      else
        match e.stem with
        | none => Except.error (DbErr.emptyStem e.ext)
        | some s =>
          if ¬ validUtf8 s then Except.error (DbErr.nonUtf8Name e.ext)
          else if e.ext = some datExt then
            openLoop { acc with files := alSet acc.files s e.bytes } rest
          else
            match e.meta with
            | none => Except.error (DbErr.jsonErr (some s))
            | some m =>
              openLoop
                { acc with
                  jsons := alSet acc.jsons s m,
                  index := indexWith (Database.hash m) m acc.index } rest) := rfl

theorem openLoop_good_step (g : DirEntry) (hg : goodEntry g)
    (acc : Database) (rest : List DirEntry) :
    ∃ acc' : Database, openLoop acc (g :: rest) = openLoop acc' rest := by
  obtain ⟨hext, hfile, hstem, hsu, hmeta⟩ := hg
  obtain ⟨s, hs⟩ := Option.isSome_iff_exists.mp hstem
  rw [hs] at hsu
  simp only [Option.getD_some] at hsu
  have hnotbad : ¬ (g.ext ≠ some datExt ∧ g.ext ≠ some jsonExt) := by
    rcases hext with h | h
    · exact fun hc => hc.1 h
    · exact fun hc => hc.2 h
  have hfile' : ¬ ¬ g.isFile = true := fun hc => hc hfile
  rcases hext with hdat | hjson
  · refine ⟨{ acc with files := alSet acc.files s g.bytes }, ?_⟩
    rw [openLoop_cons, if_neg hnotbad, if_neg hfile', hs]
    dsimp only
    rw [if_neg (fun hc => hc hsu), if_pos hdat]
  · have hdat : ¬ g.ext = some datExt := by
      rw [hjson]
      decide
    obtain ⟨m, hm⟩ := Option.isSome_iff_exists.mp (hmeta hjson)
    refine ⟨{ acc with
      jsons := alSet acc.jsons s m,
      index := indexWith (Database.hash m) m acc.index }, ?_⟩
    rw [openLoop_cons, if_neg hnotbad, if_neg hfile', hs]
    dsimp only
    rw [if_neg (fun hc => hc hsu), if_neg hdat, hm]

theorem openLoop_progress (acc : Database) (e : DirEntry) :
    (∃ err, ∀ rest, openLoop acc (e :: rest) = Except.error err) ∨
      ∃ acc', ∀ rest, openLoop acc (e :: rest) = openLoop acc' rest := by
  by_cases h1 : e.ext ≠ some datExt ∧ e.ext ≠ some jsonExt
  · exact Or.inl ⟨_, fun rest => by rw [openLoop_cons, if_pos h1]⟩
  · by_cases h2 : ¬ e.isFile = true
    · exact Or.inl ⟨_, fun rest => by rw [openLoop_cons, if_neg h1, if_pos h2]⟩
    · cases hs : e.stem with
      | none =>
        refine Or.inl ⟨DbErr.emptyStem e.ext, fun rest => ?_⟩
        rw [openLoop_cons, if_neg h1, if_neg h2, hs]
      | some s =>
        by_cases h3 : ¬ validUtf8 s = true
        · refine Or.inl ⟨DbErr.nonUtf8Name e.ext, fun rest => ?_⟩
          rw [openLoop_cons, if_neg h1, if_neg h2, hs]
          dsimp only
          rw [if_pos h3]
        · by_cases h4 : e.ext = some datExt
          · refine Or.inr ⟨{ acc with files := alSet acc.files s e.bytes },
              fun rest => ?_⟩
            rw [openLoop_cons, if_neg h1, if_neg h2, hs]
            dsimp only
            rw [if_neg h3, if_pos h4]
          · cases hm : e.meta with
            | none =>
              refine Or.inl ⟨DbErr.jsonErr (some s), fun rest => ?_⟩
              rw [openLoop_cons, if_neg h1, if_neg h2, hs]
              dsimp only
              rw [if_neg h3, if_neg h4, hm]
            | some m =>
              refine Or.inr ⟨{ acc with
                jsons := alSet acc.jsons s m,
                index := indexWith (Database.hash m) m acc.index },
                fun rest => ?_⟩
              rw [openLoop_cons, if_neg h1, if_neg h2, hs]
              dsimp only
              rw [if_neg h3, if_neg h4, hm]

theorem openLoop_fails (es : List DirEntry) (e : DirEntry) (he : e ∈ es)
    (hbad : badEntry e) : ∀ acc, ∃ err, openLoop acc es = Except.error err := by
  induction es with
  | nil => exact absurd he (List.not_mem_nil _)
  | cons g rest ih =>
    intro acc
    rcases List.mem_cons.mp he with rfl | hrest
    · rw [openLoop_cons]
      rcases hbad with hext | hfile
      · exact ⟨_, by rw [if_pos hext]⟩
      · by_cases h1 : e.ext ≠ some datExt ∧ e.ext ≠ some jsonExt
        · exact ⟨_, by rw [if_pos h1]⟩
        · have h2 : ¬ e.isFile = true := by
            rw [hfile]
            exact Bool.false_ne_true
          exact ⟨_, by rw [if_neg h1, if_pos h2]⟩
    · rcases openLoop_progress acc g with ⟨err, herr⟩ | ⟨acc', hstep⟩
      · exact ⟨err, herr rest⟩
      · obtain ⟨err, herr⟩ := ih hrest acc'
        exact ⟨err, (hstep rest) ▸ herr⟩

theorem openLoop_ok (es : List DirEntry) (h : ∀ e ∈ es, goodEntry e) :
    ∀ acc, ∃ db, openLoop acc es = Except.ok db := by
  induction es with
  | nil => exact fun acc => ⟨acc, rfl⟩
  | cons g rest ih =>
    intro acc
    obtain ⟨acc', hstep⟩ := openLoop_good_step g (h g (List.mem_cons_self _ _)) acc rest
    obtain ⟨db, hdb⟩ := ih (fun e he => h e (List.mem_cons_of_mem _ he)) acc'
    exact ⟨db, hstep ▸ hdb⟩

theorem openLoop_first_bad (pre : List DirEntry) (e : DirEntry)
    (post : List DirEntry) (hbad : badEntry e) (hpre : ∀ g ∈ pre, goodEntry g) :
    ∀ acc, openLoop acc (pre ++ e :: post) =
      Except.error
        (if e.ext ≠ some datExt ∧ e.ext ≠ some jsonExt
         then DbErr.invalidFile e.stem e.ext
         else DbErr.notAFile e.stem e.ext) := by
  induction pre with
  | nil =>
    intro acc
    rw [List.nil_append, openLoop_cons]
    by_cases h1 : e.ext ≠ some datExt ∧ e.ext ≠ some jsonExt
    · rw [if_pos h1, if_pos h1]
    · rw [if_neg h1, if_neg h1]
      rcases hbad with hext | hfile
      · exact absurd hext h1
      · have h2 : ¬ e.isFile = true := by
          rw [hfile]
          exact Bool.false_ne_true
        rw [if_pos h2]
  | cons g pre2 ih =>
    intro acc
    rw [List.cons_append]
    obtain ⟨acc', hstep⟩ :=
      openLoop_good_step g (hpre g (List.mem_cons_self _ _)) acc (pre2 ++ e :: post)
    rw [hstep]
    exact ih (fun x hx => hpre x (List.mem_cons_of_mem _ hx)) acc'

/-- C8 (amended): opening fails whenever some directory entry is not a
regular `dat`/`json` file, and the error is the store-format error
identifying that entry when every earlier entry is well-formed (an
earlier entry's own failure — e.g. a JSON parse error — is reported
instead); when every entry is a regular `dat`/`json` file with a present
valid-UTF-8 stem and parseable metadata, opening succeeds. -/
theorem open_validation (es : List DirEntry) :
    (∀ pre e post, es = pre ++ e :: post → badEntry e →
        (∀ g ∈ pre, goodEntry g) →
        Database.openDir es = Except.error
          (if e.ext ≠ some datExt ∧ e.ext ≠ some jsonExt
           then DbErr.invalidFile e.stem e.ext
           else DbErr.notAFile e.stem e.ext)) ∧
      ((∃ e ∈ es, badEntry e) → ∃ err, Database.openDir es = Except.error err) ∧
      ((∀ e ∈ es, goodEntry e) → ∃ db, Database.openDir es = Except.ok db) := by
  refine ⟨?_, ?_, ?_⟩
  · intro pre e post hsplit hbad hpre
    rw [hsplit]
    exact openLoop_first_bad pre e post hbad hpre _
  · rintro ⟨e, he, hbad⟩
    exact openLoop_fails es e he hbad _
  · intro h
    exact openLoop_ok es h _

/-- Witness for C8 on a directory with one well-formed data file. -/
theorem open_validation_witness :
    (∀ e ∈ ([⟨some [104], some datExt, true, [104], none⟩] : List DirEntry),
        goodEntry e) ∧
      ∃ db, Database.openDir [⟨some [104], some datExt, true, [104], none⟩] =
        Except.ok db :=
  ⟨by decide,
    (open_validation [⟨some [104], some datExt, true, [104], none⟩]).2.2 (by decide)⟩

/-- Counterexample to C8 as stated: a directory holding an unparseable
`json` file followed by an extension-less entry fails with the JSON parse
error of the first file, not with a store-format error identifying the
offending second entry. -/
theorem open_validation_cex :
    Database.openDir [⟨some [97], some jsonExt, true, [], none⟩,
        ⟨some [98], none, true, [], none⟩] =
      Except.error (DbErr.jsonErr (some [97])) ∧
      badEntry ⟨some [98], none, true, [], none⟩ ∧
      ¬ DbErr.jsonErr (some [97]) = DbErr.invalidFile (some [98]) none :=
  ⟨by decide, by decide, by decide⟩

/-! ### Reopening a store (C3) -/

theorem validUtf8_ascii (l : List Nat) (h : ∀ b ∈ l, b < 128) :
    validUtf8 l = true := by
  unfold validUtf8
  induction l with
  | nil => rfl
  | cons b bs ih =>
    have hb : b < 128 := h b (List.mem_cons_self _ _)
    simp only [vuGo]
    rw [if_pos (show ((0 : Nat) == 0) = true from rfl), if_pos hb]
    exact ih (fun x hx => h x (List.mem_cons_of_mem _ hx))

theorem hexDigit_lt (n : Nat) (h : n ≤ 15) : hexDigit n < 128 := by
  unfold hexDigit
  split <;> omega

theorem hash_ascii (m : List (List Nat × List Nat)) :
    ∀ b ∈ Database.hash m, b < 128 := by
  intro b hb
  unfold Database.hash hexRender at hb
  obtain ⟨x, _, hbx⟩ := List.mem_flatMap.mp hb
  unfold hexByte at hbx
  rcases List.mem_cons.mp hbx with rfl | hbx
  · exact hexDigit_lt _ (by omega)
  · rcases List.mem_cons.mp hbx with rfl | hbx
    · exact hexDigit_lt _ (by omega)
    · exact absurd hbx (List.not_mem_nil _)

theorem validUtf8_hash (m : List (List Nat × List Nat)) :
    validUtf8 (Database.hash m) = true :=
  validUtf8_ascii _ (hash_ascii m)

theorem openLoop_dats (fcs : List (List Nat × List Nat)) (acc : Database)
    (h : ∀ fc ∈ fcs, validUtf8 fc.1 = true) :
    openLoop acc (fcs.map (fun fc => ⟨some fc.1, some datExt, true, fc.2, none⟩)) =
      Except.ok { acc with
        files := fcs.foldl (fun fs fc => alSet fs fc.1 fc.2) acc.files } := by
  induction fcs generalizing acc with
  | nil => rfl
  | cons fc rest ih =>
    rw [List.map_cons, openLoop_cons]
    dsimp only
    rw [if_neg (fun hc => hc.1 rfl), if_neg (fun hc => hc rfl),
      if_neg (fun hc => hc (h fc (List.mem_cons_self _ _))), if_pos rfl]
    rw [ih _ (fun x hx => h x (List.mem_cons_of_mem _ hx))]
    rfl

theorem openLoop_jsons (fms : List (List Nat × List (List Nat × List Nat)))
    (acc : Database) (h : ∀ fm ∈ fms, validUtf8 fm.1 = true) :
    openLoop acc (fms.map (fun fm => ⟨some fm.1, some jsonExt, true, [], some fm.2⟩)) =
      Except.ok { acc with
        jsons := fms.foldl (fun js fm => alSet js fm.1 fm.2) acc.jsons,
        index := fms.foldl
          (fun ix fm => indexWith (Database.hash fm.2) fm.2 ix) acc.index } := by
  induction fms generalizing acc with
  | nil => rfl
  | cons fm rest ih =>
    rw [List.map_cons, openLoop_cons]
    dsimp only
    rw [if_neg (fun hc => hc.2 rfl), if_neg (fun hc => hc rfl),
      if_neg (fun hc => hc (h fm (List.mem_cons_self _ _))), if_neg (by decide)]
    rw [ih _ (fun x hx => h x (List.mem_cons_of_mem _ hx))]
    rfl

theorem foldl_alSet_fresh {β : Type} (fcs : List (List Nat × β)) :
    ∀ acc : List (List Nat × β), (∀ fc ∈ fcs, alGet acc fc.1 = none) →
      (fcs.map Prod.fst).Nodup →
      fcs.foldl (fun fs fc => alSet fs fc.1 fc.2) acc = acc ++ fcs := by
  induction fcs with
  | nil =>
    intro acc _ _
    simp
  | cons fc rest ih =>
    intro acc hfresh hnd
    have hnd2 := List.nodup_cons.mp
      (show (fc.1 :: rest.map Prod.fst).Nodup from hnd)
    rw [List.foldl_cons, alSet_not_mem _ _ _ (hfresh fc (List.mem_cons_self _ _))]
    have hfresh2 : ∀ x ∈ rest, alGet (acc ++ [(fc.1, fc.2)]) x.1 = none := by
      intro x hx
      rw [alGet_append_none _ _ _ (hfresh x (List.mem_cons_of_mem _ hx))]
      have hne : ¬ fc.1 = x.1 :=
        fun he => hnd2.1 (he ▸ List.mem_map_of_mem Prod.fst hx)
      simp [alGet, hne]
    rw [ih (acc ++ [(fc.1, fc.2)]) hfresh2 hnd2.2]
    simp

theorem foldl_alSet_self {β : Type} (fcs : List (List Nat × β))
    (hnd : (fcs.map Prod.fst).Nodup) :
    fcs.foldl (fun fs fc => alSet fs fc.1 fc.2) [] = fcs := by
  have := foldl_alSet_fresh fcs [] (fun fc _ => rfl) hnd
  simpa using this

theorem hash_metaOfShard (R : List LogEntry) (f : List Nat) (h : f ∈ hashes R) :
    Database.hash (metaOfShard R f) = f := by
  cases hs : shardOf R f with
  | nil => exact absurd hs (shardOf_ne_nil R f h)
  | cons r0 t =>
    have hr0 : r0 ∈ shardOf R f := by
      rw [hs]
      exact List.mem_cons_self r0 t
    have hrf : hashOf r0 = f := beq_iff_eq.mp (List.mem_filter.mp hr0).2
    have hmeta : metaOfShard R f = r0.metadata := by
      unfold metaOfShard
      rw [hs]
      rfl
    rw [hmeta]
    exact hrf

theorem addAll_fresh (fs : List (List Nat)) :
    ∀ ks : List (List Nat), (∀ f ∈ fs, f ∉ ks) → fs.Nodup →
      addAll ks fs = ks ++ fs := by
  induction fs with
  | nil =>
    intro ks _ _
    simp [addAll]
  | cons f t ih =>
    intro ks hfresh hnd
    have hnd2 := List.nodup_cons.mp hnd
    have hstep : addAll ks (f :: t) = addAll (addKey f ks) t := rfl
    have hkf : addKey f ks = ks ++ [f] := by
      rw [addKey, if_neg (hfresh f (List.mem_cons_self _ _))]
    have hfresh2 : ∀ x ∈ t, x ∉ ks ++ [f] := by
      intro x hx hc
      rcases List.mem_append.mp hc with h' | h'
      · exact hfresh x (List.mem_cons_of_mem _ hx) h'
      · exact hnd2.1 ((List.mem_singleton.mp h') ▸ hx)
    rw [hstep, hkf, ih (ks ++ [f]) hfresh2 hnd2.2]
    simp

theorem alGet_jsonsFold (fms : List (List Nat × List (List Nat × List Nat))) :
    ∀ ix, (∀ fm ∈ fms, Database.hash fm.2 = fm.1) → ∀ kv,
      alGet (fms.foldl (fun ix fm => indexWith (Database.hash fm.2) fm.2 ix) ix) kv =
        (if fms.filter (fun fm => fm.2.contains kv) = [] then alGet ix kv
         else some (addAll ((alGet ix kv).getD [])
           ((fms.filter (fun fm => fm.2.contains kv)).map Prod.fst))) := by
  induction fms with
  | nil =>
    intro ix _ kv
    simp
  | cons fm rest ih =>
    intro ix hh kv
    have hh1 : Database.hash fm.2 = fm.1 := hh fm (List.mem_cons_self _ _)
    have hrest : ∀ x ∈ rest, Database.hash x.2 = x.1 :=
      fun x hx => hh x (List.mem_cons_of_mem _ hx)
    rw [List.foldl_cons]
    rw [ih (indexWith (Database.hash fm.2) fm.2 ix) hrest kv, List.filter_cons]
    by_cases hc : fm.2.contains kv = true
    · rw [if_pos hc, if_neg (List.cons_ne_nil _ _)]
      have hix' : alGet (indexWith (Database.hash fm.2) fm.2 ix) kv =
          some (addKey fm.1 ((alGet ix kv).getD [])) := by
        rw [alGet_indexWith, if_pos (List.elem_iff.mp hc), hh1]
      by_cases hr : rest.filter (fun fm => fm.2.contains kv) = []
      · rw [if_pos hr, hix', hr]
        rfl
      · rw [if_neg hr, hix']
        rfl
    · rw [if_neg hc]
      have hix' : alGet (indexWith (Database.hash fm.2) fm.2 ix) kv = alGet ix kv := by
        rw [alGet_indexWith, if_neg (fun hmem => hc (List.elem_iff.mpr hmem))]
      rw [hix']

theorem firstDedupAux_filter {α : Type} [DecidableEq α] (Q : α → Bool) (l : List α) :
    ∀ seen1 seen2 : List α, (∀ x, Q x = true → (x ∈ seen1 ↔ x ∈ seen2)) →
      firstDedupAux seen1 (l.filter Q) = (firstDedupAux seen2 l).filter Q := by
  induction l with
  | nil =>
    intro seen1 seen2 _
    rfl
  | cons a t ih =>
    intro seen1 seen2 hseen
    by_cases hq : Q a = true
    · rw [List.filter_cons, if_pos hq]
      by_cases ha : a ∈ seen2
      · have ha1 : a ∈ seen1 := (hseen a hq).mpr ha
        rw [show firstDedupAux seen1 (a :: t.filter Q) =
            firstDedupAux seen1 (t.filter Q) from by
          simp only [firstDedupAux]
          rw [if_pos ha1]]
        rw [show firstDedupAux seen2 (a :: t) = firstDedupAux seen2 t from by
          simp only [firstDedupAux]
          rw [if_pos ha]]
        exact ih seen1 seen2 hseen
      · have ha1 : a ∉ seen1 := fun hc => ha ((hseen a hq).mp hc)
        have hseen2 : ∀ x, Q x = true → (x ∈ a :: seen1 ↔ x ∈ a :: seen2) := by
          intro x hx
          simp only [List.mem_cons]
          exact or_congr Iff.rfl (hseen x hx)
        rw [show firstDedupAux seen1 (a :: t.filter Q) =
            a :: firstDedupAux (a :: seen1) (t.filter Q) from by
          simp only [firstDedupAux]
          rw [if_neg ha1]]
        rw [show firstDedupAux seen2 (a :: t) =
            a :: firstDedupAux (a :: seen2) t from by
          simp only [firstDedupAux]
          rw [if_neg ha]]
        rw [List.filter_cons, if_pos hq, ih (a :: seen1) (a :: seen2) hseen2]
    · rw [List.filter_cons, if_neg hq]
      by_cases ha : a ∈ seen2
      · rw [show firstDedupAux seen2 (a :: t) = firstDedupAux seen2 t from by
          simp only [firstDedupAux]
          rw [if_pos ha]]
        exact ih seen1 seen2 hseen
      · have hseen2 : ∀ x, Q x = true → (x ∈ seen1 ↔ x ∈ a :: seen2) := by
          intro x hx
          rw [hseen x hx]
          simp only [List.mem_cons]
          constructor
          · exact fun h => Or.inr h
          · rintro (rfl | h)
            · exact absurd hx hq
            · exact h
        rw [show firstDedupAux seen2 (a :: t) =
            a :: firstDedupAux (a :: seen2) t from by
          simp only [firstDedupAux]
          rw [if_neg ha]]
        rw [List.filter_cons, if_neg hq]
        exact ih seen1 (a :: seen2) hseen2

theorem firstDedup_filter {α : Type} [DecidableEq α] (Q : α → Bool) (l : List α) :
    firstDedup (l.filter Q) = (firstDedup l).filter Q :=
  firstDedupAux_filter Q l [] [] (fun _ _ => Iff.rfl)

theorem contains_congr {α : Type} [BEq α] [LawfulBEq α] (l1 l2 : List α) (a : α)
    (h : a ∈ l1 ↔ a ∈ l2) : l1.contains a = l2.contains a := by
  by_cases hm : a ∈ l1
  · have h1 : l1.contains a = true := List.elem_iff.mpr hm
    have h2 : l2.contains a = true := List.elem_iff.mpr (h.mp hm)
    rw [h1, h2]
  · have hm2 : a ∉ l2 := fun hc => hm (h.mpr hc)
    have h1 : l1.contains a = false := by
      cases hc : l1.contains a
      · rfl
      · exact absurd (List.elem_iff.mp hc) hm
    have h2 : l2.contains a = false := by
      cases hc : l2.contains a
      · rfl
      · exact absurd (List.elem_iff.mp hc) hm2
    rw [h1, h2]

theorem contains_metaOfShard (R : List LogEntry) (hinj : hashInjOn R)
    (r : LogEntry) (hr : r ∈ R) (kv : List Nat × List Nat) :
    r.metadata.contains kv = (metaOfShard R (hashOf r)).contains kv := by
  cases hs : shardOf R (hashOf r) with
  | nil => exact absurd (hs ▸ mem_shardOf_self R r hr) (List.not_mem_nil r)
  | cons r0 t =>
    have hr0 : r0 ∈ shardOf R (hashOf r) := by
      rw [hs]
      exact List.mem_cons_self r0 t
    have hr0R : r0 ∈ R := (List.mem_filter.mp hr0).1
    have hrf : hashOf r0 = hashOf r := beq_iff_eq.mp (List.mem_filter.mp hr0).2
    have hmeta : metaOfShard R (hashOf r) = r0.metadata := by
      unfold metaOfShard
      rw [hs]
      rfl
    rw [hmeta]
    obtain ⟨h1, h2⟩ := hinj r hr r0 hr0R hrf.symm
    exact contains_congr _ _ _ ⟨fun hm => h1 kv hm, fun hm => h2 kv hm⟩

theorem filter_map_comm {α β : Type} (g : α → β) (p : β → Bool) (l : List α) :
    (l.map g).filter p = (l.filter (fun a => p (g a))).map g := by
  induction l with
  | nil => rfl
  | cons a t ih =>
    rw [List.map_cons, List.filter_cons, List.filter_cons]
    by_cases hp : p (g a) = true
    · rw [if_pos hp, if_pos hp, List.map_cons, ih]
    · rw [if_neg hp, if_neg hp, ih]

theorem keysSpec_eq_filter (R : List LogEntry) (hinj : hashInjOn R)
    (kv : List Nat × List Nat) :
    keysSpec R kv = (hashes R).filter (fun f => (metaOfShard R f).contains kv) := by
  unfold keysSpec hashes matching
  rw [show R.filter (fun r => r.metadata.contains kv) =
      R.filter (fun r => (metaOfShard R (hashOf r)).contains kv) from
    List.filter_congr (fun r hr => contains_metaOfShard R hinj r hr kv)]
  rw [show (R.filter (fun r => (metaOfShard R (hashOf r)).contains kv)).map hashOf =
      (R.map hashOf).filter (fun f => (metaOfShard R f).contains kv) from
    (filter_map_comm hashOf (fun f => (metaOfShard R f).contains kv) R).symm]
  exact firstDedup_filter _ _

theorem keysSpec_eq_nil_iff (R : List LogEntry) (kv : List Nat × List Nat) :
    keysSpec R kv = [] ↔ matching R kv = [] := by
  unfold keysSpec
  constructor
  · intro h
    cases hm : matching R kv with
    | nil => rfl
    | cons r t =>
      have hmem : hashOf r ∈ firstDedup ((matching R kv).map hashOf) := by
        rw [mem_firstDedup]
        refine List.mem_map_of_mem hashOf ?_
        rw [hm]
        exact List.mem_cons_self r t
      rw [h] at hmem
      exact absurd hmem (List.not_mem_nil _)
  · intro h
    rw [h]
    rfl

theorem openLoop_append_ok (es1 es2 : List DirEntry) :
    ∀ acc acc', openLoop acc es1 = Except.ok acc' →
      openLoop acc (es1 ++ es2) = openLoop acc' es2 := by
  induction es1 with
  | nil =>
    intro acc acc' h
    have h2 : acc = acc' := Except.ok.inj h
    rw [List.nil_append, h2]
  | cons e rest ih =>
    intro acc acc' h
    rcases openLoop_progress acc e with ⟨err, herr⟩ | ⟨acc2, hstep⟩
    · rw [herr rest] at h
      exact Except.noConfusion h
    · rw [List.cons_append, hstep (rest ++ es2)]
      rw [hstep rest] at h
      exact ih acc2 acc' h

theorem read_congr (db1 db2 : Database) (hfiles : db1.files = db2.files)
    (key : List Nat) : db1.read key = db2.read key := by
  unfold Database.read
  rw [hfiles]

theorem queryLoop_congr (db1 db2 : Database) (hfiles : db1.files = db2.files)
    (keys : List (List Nat)) : queryLoop db1 keys = queryLoop db2 keys := by
  induction keys with
  | nil => rfl
  | cons k rest ih =>
    simp only [queryLoop, read_congr db1 db2 hfiles k, ih]

theorem query_congr (db1 db2 : Database) (hfiles : db1.files = db2.files)
    (hidx : ∀ kv, alGet db1.index kv = alGet db2.index kv)
    (key value : List Nat) : db1.query key value = db2.query key value := by
  unfold Database.query
  rw [hidx (key, value)]
  cases alGet db2.index (key, value) with
  | none => rfl
  | some keys =>
    dsimp only
    rw [queryLoop_congr db1 db2 hfiles keys]

/-- C3 (amended): provided records whose metadata maps collide under the
fingerprint carry the same set of `(key, value)` pairs, writing a history
into a store opened on an empty directory, dropping it and reopening the
resulting data directory succeeds and yields a store that answers every
query identically to the original; moreover the reopened store owns the
same data directory, so opening is idempotent over the directory
contents. -/
theorem database_reopen_roundtrip (R : List LogEntry) (hinj : hashInjOn R) :
    ∃ db', Database.openDir (dirOf (writeAll R)) = Except.ok db' ∧
      (∀ k v, db'.query k v = (writeAll R).query k v) ∧
      dirOf db' = dirOf (writeAll R) := by
  obtain ⟨hf, hj, hi⟩ := DbInv_writeAll R
  have hvf : ∀ fc ∈ (writeAll R).files, validUtf8 fc.1 = true := by
    intro fc hfc
    rw [hf] at hfc
    obtain ⟨f, hfm, hfc2⟩ := List.mem_map.mp hfc
    obtain ⟨r, _, hfr⟩ := List.mem_map.mp ((mem_firstDedup _ _).mp hfm)
    rw [← hfc2]
    dsimp only
    rw [← hfr]
    exact validUtf8_hash r.metadata
  have hvj : ∀ fm ∈ (writeAll R).jsons, validUtf8 fm.1 = true := by
    intro fm hfm
    rw [hj] at hfm
    obtain ⟨f, hfm2, hfc2⟩ := List.mem_map.mp hfm
    obtain ⟨r, _, hfr⟩ := List.mem_map.mp ((mem_firstDedup _ _).mp hfm2)
    rw [← hfc2]
    dsimp only
    rw [← hfr]
    exact validUtf8_hash r.metadata
  have hfnodup : ((writeAll R).files.map Prod.fst).Nodup := by
    rw [hf, List.map_map]
    have hcomp : (Prod.fst ∘ fun f =>
        (f, joinSep ((shardOf R f).map LogEntry.line))) = id := rfl
    rw [hcomp, List.map_id]
    exact hashes_nodup R
  have hjnodup : ((writeAll R).jsons.map Prod.fst).Nodup := by
    rw [hj, List.map_map]
    have hcomp : (Prod.fst ∘ fun f => (f, metaOfShard R f)) = id := rfl
    rw [hcomp, List.map_id]
    exact hashes_nodup R
  have hfoldf : (writeAll R).files.foldl
      (fun fs fc => alSet fs fc.1 fc.2) emptyDb.files = (writeAll R).files :=
    foldl_alSet_self _ hfnodup
  have hfoldj : (writeAll R).jsons.foldl
      (fun js fm => alSet js fm.1 fm.2) ([] : List (List Nat × List (List Nat × List Nat))) =
      (writeAll R).jsons :=
    foldl_alSet_self _ hjnodup
  have hrec1 : ({ emptyDb with files := ((writeAll R).files.foldl
      (fun fs fc => alSet fs fc.1 fc.2) emptyDb.files) } : Database) =
      ⟨(writeAll R).files, [], []⟩ :=
    congrArg (fun x => (⟨x, [], []⟩ : Database)) hfoldf
  have h1 : openLoop emptyDb ((writeAll R).files.map
      (fun fc => ⟨some fc.1, some datExt, true, fc.2, none⟩)) =
      Except.ok (⟨(writeAll R).files, [], []⟩ : Database) :=
    (openLoop_dats _ _ hvf).trans (congrArg Except.ok hrec1)
  have hrec2 : ({ (⟨(writeAll R).files, [], []⟩ : Database) with
      jsons := ((writeAll R).jsons.foldl (fun js fm => alSet js fm.1 fm.2) []),
      index := ((writeAll R).jsons.foldl
        (fun ix fm => indexWith (Database.hash fm.2) fm.2 ix) []) } : Database) =
      ⟨(writeAll R).files, (writeAll R).jsons, (writeAll R).jsons.foldl
        (fun ix fm => indexWith (Database.hash fm.2) fm.2 ix) []⟩ :=
    congrArg (fun x => (⟨(writeAll R).files, x, (writeAll R).jsons.foldl
      (fun ix fm => indexWith (Database.hash fm.2) fm.2 ix) []⟩ : Database)) hfoldj
  have hopen : Database.openDir (dirOf (writeAll R)) = Except.ok
      (⟨(writeAll R).files, (writeAll R).jsons, (writeAll R).jsons.foldl
        (fun ix fm => indexWith (Database.hash fm.2) fm.2 ix) []⟩ : Database) := by
    show openLoop emptyDb (dirOf (writeAll R)) = _
    unfold dirOf
    rw [openLoop_append_ok _ _ _ _ h1]
    exact (openLoop_jsons (writeAll R).jsons _ hvj).trans (congrArg Except.ok hrec2)
  have hhash2 : ∀ fm ∈ (writeAll R).jsons, Database.hash fm.2 = fm.1 := by
    intro fm hfm
    rw [hj] at hfm
    obtain ⟨f, hf2, hfc⟩ := List.mem_map.mp hfm
    rw [← hfc]
    exact hash_metaOfShard R f hf2
  have hidxeq : ∀ kv, alGet ((writeAll R).jsons.foldl
      (fun ix fm => indexWith (Database.hash fm.2) fm.2 ix) []) kv = idxSpec R kv := by
    intro kv
    rw [alGet_jsonsFold (writeAll R).jsons [] hhash2 kv]
    rw [show (writeAll R).jsons.filter (fun fm => fm.2.contains kv) =
        (keysSpec R kv).map (fun f => (f, metaOfShard R f)) from by
      rw [hj, filter_map_comm, keysSpec_eq_filter R hinj kv]]
    by_cases hm : matching R kv = []
    · have hk : keysSpec R kv = [] := (keysSpec_eq_nil_iff R kv).mpr hm
      rw [hk]
      simp [idxSpec, hm, alGet]
    · have hk : ¬ keysSpec R kv = [] := fun hc => hm ((keysSpec_eq_nil_iff R kv).mp hc)
      have hmapne : ¬ ((keysSpec R kv).map (fun f => (f, metaOfShard R f)) = []) := by
        intro hc
        cases hks : keysSpec R kv with
        | nil => exact hk hks
        | cons a t =>
          rw [hks, List.map_cons] at hc
          exact absurd hc (List.cons_ne_nil _ _)
      rw [if_neg hmapne]
      rw [show idxSpec R kv = some (keysSpec R kv) from by
        unfold idxSpec
        rw [if_neg hm]]
      rw [List.map_map]
      have hcomp : (Prod.fst ∘ fun f => (f, metaOfShard R f)) = id := rfl
      rw [hcomp, List.map_id]
      have h2 := addAll_fresh (keysSpec R kv) []
        (fun f _ => List.not_mem_nil f) (firstDedup_nodup _)
      rw [List.nil_append] at h2
      exact congrArg some h2
  refine ⟨⟨(writeAll R).files, (writeAll R).jsons, (writeAll R).jsons.foldl
      (fun ix fm => indexWith (Database.hash fm.2) fm.2 ix) []⟩, hopen, ?_, ?_⟩
  · intro k v
    refine query_congr (⟨(writeAll R).files, (writeAll R).jsons, (writeAll R).jsons.foldl
      (fun ix fm => indexWith (Database.hash fm.2) fm.2 ix) []⟩ : Database)
      (writeAll R) rfl (fun kv => ?_) k v
    show alGet ((writeAll R).jsons.foldl
      (fun ix fm => indexWith (Database.hash fm.2) fm.2 ix) []) kv =
      alGet (writeAll R).index kv
    rw [hidxeq kv, hi kv]
  · unfold dirOf
    rfl

/-- Witness for C3: the one-record history with line `"h"` and metadata
`{a: b}` satisfies the collision side condition, and reopening round-trips. -/
theorem database_reopen_roundtrip_witness :
    hashInjOn [⟨[104], [([97], [98])]⟩] ∧
      ∃ db', Database.openDir (dirOf (writeAll [⟨[104], [([97], [98])]⟩])) =
          Except.ok db' ∧
        (∀ k v, db'.query k v = (writeAll [⟨[104], [([97], [98])]⟩]).query k v) ∧
        dirOf db' = dirOf (writeAll [⟨[104], [([97], [98])]⟩]) :=
  ⟨by decide, database_reopen_roundtrip [⟨[104], [([97], [98])]⟩] (by decide)⟩

/-- Counterexample to C3 as stated: the histories write `"L1"` under
`{ab: c}` and `"L2"` under `{a: bc}`, whose fingerprints collide (the MD5
input is the concatenation `key ++ value` in both cases).  Before the
reopen, `query(a, bc)` returns both lines; after dropping the store and
reopening the same directory — whose single sidecar holds `{ab: c}` —
the same query returns `none`. -/
theorem database_reopen_roundtrip_cex :
    (writeAll [⟨[76, 49], [([97, 98], [99])]⟩,
        ⟨[76, 50], [([97], [98, 99])]⟩]).query [97] [98, 99] =
      Except.ok (some [[76, 49], [76, 50]]) ∧
    (Database.openDir (dirOf (writeAll [⟨[76, 49], [([97, 98], [99])]⟩,
        ⟨[76, 50], [([97], [98, 99])]⟩]))).map
      (fun db' => db'.query [97] [98, 99]) = Except.ok (Except.ok none) :=
  ⟨by decide, by decide⟩

/-! ### XOR-fold commutation (for C2) -/

theorem zipXor_right_comm (d x y : List Nat) :
    List.zipWith (fun a b => a ^^^ b) (List.zipWith (fun a b => a ^^^ b) d x) y =
      List.zipWith (fun a b => a ^^^ b) (List.zipWith (fun a b => a ^^^ b) d y) x := by
  induction d generalizing x y with
  | nil => simp
  | cons a d ih =>
    cases x with
    | nil => cases y <;> simp
    | cons xb xt =>
      cases y with
      | nil => simp
      | cons yb yt =>
        simp only [List.zipWith_cons_cons]
        rw [Nat.xor_assoc, Nat.xor_comm xb yb, ← Nat.xor_assoc, ih]

theorem hashFold_perm (m m' : List (List Nat × List Nat)) (h : m.Perm m')
    (d : List Nat) :
    m.foldl (fun digest kv =>
        List.zipWith (fun a b => a ^^^ b) digest (md5 (kv.1 ++ kv.2))) d =
      m'.foldl (fun digest kv =>
        List.zipWith (fun a b => a ^^^ b) digest (md5 (kv.1 ++ kv.2))) d := by
  induction h generalizing d with
  | nil => rfl
  | cons x h ih =>
    simp only [List.foldl_cons]
    exact ih _
  | swap x y l =>
    simp only [List.foldl_cons]
    rw [zipXor_right_comm]
  | trans h1 h2 ih1 ih2 => exact (ih1 d).trans (ih2 d)

/-- C2: for every metadata map `m` and every permutation `m'` of its
entries, `Database::hash` yields the same fingerprint. -/
theorem hash_perm_invariant (m m' : List (List Nat × List Nat))
    (h : m.Perm m') : Database.hash m = Database.hash m' := by
  unfold Database.hash
  exact congrArg hexRender (hashFold_perm m m' h _)

/-- Witness for C2 at a concrete two-entry map and its swap. -/
theorem hash_perm_invariant_witness :
    ([([97], [98]), ([99], [100])] : List (List Nat × List Nat)).Perm
        [([99], [100]), ([97], [98])] ∧
      Database.hash [([97], [98]), ([99], [100])] =
        Database.hash [([99], [100]), ([97], [98])] :=
  ⟨by decide, hash_perm_invariant _ _ (by decide)⟩

/-- C9: the fingerprint of the empty metadata map is the lowercase hex
rendering of sixteen zero bytes, i.e. thirty-two `'0'` characters
(byte 48). -/
theorem hash_empty_zero :
    Database.hash [] = hexRender (List.replicate 16 0) ∧
      Database.hash [] = List.replicate 32 48 := by
  constructor <;> rfl

/-- C7 (amended): `query` returns `Ok(None)` exactly when the inverted
index has no entry for `(key, value)`; when an entry exists the result is
never `Ok(None)` — it is a (possibly empty) list, or an error if an
indexed shard holds invalid UTF-8. -/
theorem query_none_iff_unindexed (db : Database) (key value : List Nat) :
    (db.query key value = Except.ok none ↔ alGet db.index (key, value) = none) := by
  unfold Database.query
  cases h : alGet db.index (key, value) with
  | none => simp
  | some keys =>
    cases hq : queryLoop db keys <;> simp [hq]

/-- C5: an event for a descriptor with a `WatchedFile` is classified as
`Append` when the read position is at most the file length and as
`Truncate` otherwise, and handling a truncation reseeks to byte 0 and
clears the partial-line buffer. -/
theorem collector_classify_append_truncate (col : Collector) (fs : FsModel)
    (d : Nat) (wf : WatchedFile) (content : List Nat)
    (hd : d ≠ col.root_wd)
    (hwf : alGet col.watched_files d = some wf)
    (hc : alGet fs.content wf.filePath = some content) :
    checkEvent col fs d =
        some [if wf.pos ≤ content.length then Event.append d else Event.truncate d]
      ∧ handleEventTruncate wf = ⟨wf.paths, wf.filePath, 0, []⟩ := by
  constructor
  · simp only [checkEvent, if_neg hd, hwf, hc]
    by_cases h : wf.pos ≤ content.length <;> simp [h]
  · cases wf
    rfl

/-- Witness for C5: a collector tailing one file of length 1 from
position 0 classifies an event on its descriptor as `Append`. -/
theorem collector_classify_append_truncate_witness :
    ((1 : Nat) ≠ (5 : Nat)) ∧
      alGet (Collector.watched_files ⟨[0], 5, [(1, ⟨[[2]], [3], 0, []⟩)], [([3], 1)], 2, [[3]]⟩) 1 =
        some ⟨[[2]], [3], 0, []⟩ ∧
      alGet (FsModel.content ⟨[], [([3], [97])]⟩) (WatchedFile.filePath ⟨[[2]], [3], 0, []⟩) =
        some [97] ∧
      (checkEvent ⟨[0], 5, [(1, ⟨[[2]], [3], 0, []⟩)], [([3], 1)], 2, [[3]]⟩ ⟨[], [([3], [97])]⟩ 1 =
          some [if WatchedFile.pos ⟨[[2]], [3], 0, []⟩ ≤ ([97] : List Nat).length
                then Event.append 1 else Event.truncate 1]
        ∧ handleEventTruncate ⟨[[2]], [3], 0, []⟩ =
            ⟨WatchedFile.paths ⟨[[2]], [3], 0, []⟩, WatchedFile.filePath ⟨[[2]], [3], 0, []⟩, 0, []⟩) :=
  ⟨by decide, by decide, by decide,
    collector_classify_append_truncate _ _ 1 _ [97] (by decide) (by decide) (by decide)⟩

/-! ### Drain characterization (for C6) -/

theorem splitNlGo_shift (acc buf l : List Nat) (h : 10 ∉ buf) :
    splitNlGo (acc ++ buf) l = splitNlGo acc (buf ++ l) := by
  induction buf generalizing acc with
  | nil => simp
  | cons x t ih =>
    have hx : x ≠ 10 := fun hc => h (by simp [hc])
    have ht : 10 ∉ t := fun hc => h (List.mem_cons_of_mem _ hc)
    have h1 : acc ++ x :: t = (acc ++ [x]) ++ t := by simp
    rw [h1, ih (acc ++ [x]) ht, List.cons_append]
    have hx' : ¬ x = 10 := hx
    simp [splitNlGo, hx']

theorem splitNlGo_frag (buf l : List Nat) (h : 10 ∉ buf) :
    10 ∉ (splitNlGo buf l).2 := by
  induction l generalizing buf with
  | nil => simpa [splitNlGo] using h
  | cons b bs ih =>
    by_cases hb : b = 10
    · subst hb
      simpa [splitNlGo] using ih [] (by simp)
    · simpa [splitNlGo, hb] using ih (buf ++ [b]) (by
        intro hc
        rcases List.mem_append.mp hc with hc | hc
        · exact h hc
        · exact hb (List.mem_singleton.mp hc).symm)

theorem vuGo_append_ten (l : List Nat) :
    ∀ exp lo hi : Nat, (exp = 0 ∨ 128 ≤ lo) →
      vuGo exp lo hi (l ++ [10]) = vuGo exp lo hi l := by
  induction l with
  | nil =>
    intro exp lo hi hinv
    by_cases h0 : exp = 0
    · subst h0
      rfl
    · have hnle : ¬ lo ≤ 10 := by
        rcases hinv with h | h
        · exact absurd h h0
        · omega
      have he : (exp == 0) = false := by
        simpa using h0
      rw [show ([] : List Nat) ++ [10] = [10] from rfl]
      simp only [vuGo]
      rw [if_neg (show ¬ ((exp == 0) = true) from by simp [he])]
      rw [if_neg (show ¬ ((lo ≤ 10 && 10 ≤ hi) = true) from by simp [hnle])]
      exact he.symm
  | cons b bs ih =>
    intro exp lo hi hinv
    rw [show (b :: bs) ++ [10] = b :: (bs ++ [10]) from rfl]
    simp only [vuGo]
    by_cases h0 : (exp == 0) = true
    · rw [if_pos h0, if_pos h0]
      by_cases h1 : b < 128
      · rw [if_pos h1, if_pos h1]
        exact ih 0 0 0 (Or.inl rfl)
      · rw [if_neg h1, if_neg h1]
        by_cases h2 : b < 194
        · rw [if_pos h2, if_pos h2]
        · rw [if_neg h2, if_neg h2]
          by_cases h3 : b < 224
          · rw [if_pos h3, if_pos h3]
            exact ih 1 128 191 (Or.inr (by omega))
          · rw [if_neg h3, if_neg h3]
            by_cases h4 : b = 224
            · rw [if_pos h4, if_pos h4]
              exact ih 2 160 191 (Or.inr (by omega))
            · rw [if_neg h4, if_neg h4]
              by_cases h5 : b = 237
              · rw [if_pos h5, if_pos h5]
                exact ih 2 128 159 (Or.inr (by omega))
              · rw [if_neg h5, if_neg h5]
                by_cases h6 : b < 240
                · rw [if_pos h6, if_pos h6]
                  exact ih 2 128 191 (Or.inr (by omega))
                · rw [if_neg h6, if_neg h6]
                  by_cases h7 : b = 240
                  · rw [if_pos h7, if_pos h7]
                    exact ih 3 144 191 (Or.inr (by omega))
                  · rw [if_neg h7, if_neg h7]
                    by_cases h8 : b < 244
                    · rw [if_pos h8, if_pos h8]
                      exact ih 3 128 191 (Or.inr (by omega))
                    · rw [if_neg h8, if_neg h8]
                      by_cases h9 : b = 244
                      · rw [if_pos h9, if_pos h9]
                        exact ih 3 128 143 (Or.inr (by omega))
                      · rw [if_neg h9, if_neg h9]
    · rw [if_neg h0, if_neg h0]
      by_cases hr : (lo ≤ b && b ≤ hi) = true
      · rw [if_pos hr, if_pos hr]
        exact ih (exp - 1) 128 191 (Or.inr (by omega))
      · rw [if_neg hr, if_neg hr]

theorem validUtf8_append_ten (l : List Nat) :
    validUtf8 (l ++ [10]) = validUtf8 l :=
  vuGo_append_ten l 0 0 0 (Or.inl rfl)

theorem drainGo_ok (paths : List (List Nat)) (l : List Nat) :
    ∀ buf seg : List Nat,
      (∀ L ∈ (splitNlGo seg l).1, validUtf8 L = true) →
      validUtf8 (splitNlGo seg l).2 = true →
      drainGo paths buf seg l =
        some (((splitNlGo (buf ++ seg) l).1).flatMap
            (fun L => paths.map (fun p => ⟨L, [(pathKey, p)]⟩)),
          (splitNlGo (buf ++ seg) l).2) := by
  induction l with
  | nil =>
    intro buf seg hlines hfrag
    have hfrag' : validUtf8 seg = true := hfrag
    simp only [drainGo, splitNlGo, List.flatMap_nil]
    by_cases hse : seg.isEmpty = true
    · have hseg : seg = [] := by
        cases seg
        · rfl
        · simp at hse
      subst hseg
      simp
    · rw [if_neg hse, if_pos hfrag']
  | cons b bs ih =>
    intro buf seg hlines hfrag
    by_cases hb : b = 10
    · subst hb
      have hsplit : ∀ x : List Nat, splitNlGo x (10 :: bs) =
          (x :: (splitNlGo [] bs).1, (splitNlGo [] bs).2) := by
        intro x
        simp [splitNlGo]
      have hseg : validUtf8 seg = true := by
        refine hlines seg ?_
        rw [hsplit seg]
        exact List.mem_cons_self _ _
      have hlines' : ∀ L ∈ (splitNlGo [] bs).1, validUtf8 L = true := by
        intro L hL
        refine hlines L ?_
        rw [hsplit seg]
        exact List.mem_cons_of_mem _ hL
      have hfrag' : validUtf8 (splitNlGo [] bs).2 = true := by
        rw [hsplit seg] at hfrag
        exact hfrag
      have hrec := ih [] [] hlines' hfrag'
      simp only [drainGo]
      rw [if_pos trivial, if_pos (by rw [validUtf8_append_ten]; exact hseg), hrec,
        hsplit (buf ++ seg)]
      simp
    · have hshift : ∀ x : List Nat, splitNlGo x (b :: bs) =
          splitNlGo (x ++ [b]) bs := by
        intro x
        simp [splitNlGo, hb]
      have hlines' : ∀ L ∈ (splitNlGo (seg ++ [b]) bs).1, validUtf8 L = true := by
        intro L hL
        refine hlines L ?_
        rw [hshift seg]
        exact hL
      have hfrag' : validUtf8 (splitNlGo (seg ++ [b]) bs).2 = true := by
        rw [hshift seg] at hfrag
        exact hfrag
      have hrec := ih buf (seg ++ [b]) hlines' hfrag'
      simp only [drainGo]
      rw [if_neg hb, hrec, hshift (buf ++ seg), List.append_assoc]

/-- C6 (amended): provided every line completed by the newly read bytes
and the trailing fragment are valid UTF-8, draining a `WatchedFile`
emits, for every line completed by the newly read bytes (the pending
fragment followed by the bytes past the read position, split at newlines
and stripped of them), exactly one record per display path with metadata
`{"path": <display path>}`; the trailing fragment (which contains no
newline) is retained in the buffer and yields no record.  Without the
proviso, `read_line` fails with an `InvalidData` error: the drain then
emits no records and retains no fragment. -/
theorem collector_drain_lines (wf : WatchedFile) (content : List Nat)
    (h : 10 ∉ wf.entryBuf)
    (hlines : ∀ L ∈ (splitNl (content.drop wf.pos)).1, validUtf8 L = true)
    (hfrag : validUtf8 (splitNl (content.drop wf.pos)).2 = true) :
    readFile wf content =
        some (((splitNl (wf.entryBuf ++ content.drop wf.pos)).1).flatMap
            (fun L => wf.paths.map (fun p => ⟨L, [(pathKey, p)]⟩)),
          { wf with pos := content.length,
                    entryBuf := (splitNl (wf.entryBuf ++ content.drop wf.pos)).2 })
      ∧ 10 ∉ (splitNl (wf.entryBuf ++ content.drop wf.pos)).2 := by
  have hs : splitNlGo wf.entryBuf (content.drop wf.pos) =
      splitNl (wf.entryBuf ++ content.drop wf.pos) := by
    have := splitNlGo_shift [] wf.entryBuf (content.drop wf.pos) h
    simpa [splitNl] using this
  constructor
  · unfold readFile
    rw [drainGo_ok wf.paths (content.drop wf.pos) wf.entryBuf [] hlines hfrag]
    rw [show wf.entryBuf ++ ([] : List Nat) = wf.entryBuf from by simp, hs]
  · exact splitNlGo_frag [] _ (by simp)

/-- Witness for C6: a file holding `"hi\nx"` read from position 0 with an
empty buffer satisfies the UTF-8 proviso and yields one record per
display path for the line `"hi"`, retaining the fragment `"x"`. -/
theorem collector_drain_lines_witness :
    ((10 ∉ WatchedFile.entryBuf ⟨[[1], [2]], [3], 0, []⟩) ∧
        (∀ L ∈ (splitNl (([104, 105, 10, 120] : List Nat).drop
            (WatchedFile.pos ⟨[[1], [2]], [3], 0, []⟩))).1, validUtf8 L = true) ∧
        validUtf8 (splitNl (([104, 105, 10, 120] : List Nat).drop
          (WatchedFile.pos ⟨[[1], [2]], [3], 0, []⟩))).2 = true) ∧
      (readFile ⟨[[1], [2]], [3], 0, []⟩ [104, 105, 10, 120] =
          some ((((splitNl (WatchedFile.entryBuf ⟨[[1], [2]], [3], 0, []⟩ ++
                ([104, 105, 10, 120] : List Nat).drop
                  (WatchedFile.pos ⟨[[1], [2]], [3], 0, []⟩))).1).flatMap
              (fun L => (WatchedFile.paths ⟨[[1], [2]], [3], 0, []⟩).map
                (fun p => ⟨L, [(pathKey, p)]⟩)),
            { (⟨[[1], [2]], [3], 0, []⟩ : WatchedFile) with
                pos := ([104, 105, 10, 120] : List Nat).length,
                entryBuf := (splitNl (WatchedFile.entryBuf ⟨[[1], [2]], [3], 0, []⟩ ++
                  ([104, 105, 10, 120] : List Nat).drop
                    (WatchedFile.pos ⟨[[1], [2]], [3], 0, []⟩))).2 }))
        ∧ 10 ∉ (splitNl (WatchedFile.entryBuf ⟨[[1], [2]], [3], 0, []⟩ ++
            ([104, 105, 10, 120] : List Nat).drop
              (WatchedFile.pos ⟨[[1], [2]], [3], 0, []⟩))).2) :=
  ⟨⟨by decide, by decide, by decide⟩,
    collector_drain_lines ⟨[[1], [2]], [3], 0, []⟩ [104, 105, 10, 120]
      (by decide) (by decide) (by decide)⟩

/-- Counterexample to C6 as stated: the content `"h\n"` followed by the
byte `255` completes the line `"h"`, yet the byte `255` is not valid
UTF-8, so the second `read_line` call fails with an `InvalidData` error
and the whole drain errors: the completed line emits no record and the
fragment is not retained. -/
theorem collector_drain_lines_cex :
    (splitNl (([104, 10, 255] : List Nat).drop 0)).1 = [[104]] ∧
      readFile ⟨[[1]], [3], 0, []⟩ [104, 10, 255] = none :=
  ⟨by decide, by decide⟩

/-- C4: on a create event with display path `p` and canonical path `c`:
if `c` is already watched, no watch is registered and no handle opened
(`watcherPaths` and `nextWd` are unchanged), `p` is appended to the
existing `WatchedFile`'s display-path list and `p` is mapped to its
descriptor; otherwise a file watch is registered on `c` and `c` is opened
at EOF with an empty line buffer, the display-path list being `p`
followed by `c` exactly when `c ≠ p` and `c` lies under the root. -/
theorem collector_create_event (col : Collector) (fs : FsModel) (p c : List Nat) :
    (∀ wd wf, alGet col.watched_paths c = some wd →
        alGet col.watched_files wd = some wf →
        ∃ col', handleEventCreate col fs p c = some (col', wd) ∧
          col'.watcherPaths = col.watcherPaths ∧
          col'.nextWd = col.nextWd ∧
          alGet col'.watched_files wd = some { wf with paths := wf.paths ++ [p] } ∧
          alGet col'.watched_paths p = some wd) ∧
    (∀ content, alGet col.watched_paths c = none →
        alGet fs.content c = some content →
        ∃ col', handleEventCreate col fs p c = some (col', col.nextWd) ∧
          col'.watcherPaths = col.watcherPaths ++ [c] ∧
          alGet col'.watched_files col.nextWd =
            some ⟨[p] ++ (if c ≠ p ∧ col.root_path.isPrefixOf c then [c] else []),
              c, content.length, []⟩ ∧
          alGet col'.watched_paths p = some col.nextWd) := by
  constructor
  · intro wd wf h1 h2
    refine ⟨{ col with
        watched_files := alSet col.watched_files wd { wf with paths := wf.paths ++ [p] },
        watched_paths := alSet col.watched_paths p wd }, ?_, rfl, rfl, ?_, ?_⟩
    · simp [handleEventCreate, h1, h2]
    · simp [alGet_alSet]
    · simp [alGet_alSet]
  · intro content h1 h2
    refine ⟨{ col with
        watched_files := alSet col.watched_files col.nextWd
          ⟨[p] ++ (if c ≠ p ∧ col.root_path.isPrefixOf c then [c] else []),
            c, content.length, []⟩,
        watched_paths := alSet
          (if c ≠ p then alSet col.watched_paths c col.nextWd else col.watched_paths)
          p col.nextWd,
        nextWd := col.nextWd + 1,
        watcherPaths := col.watcherPaths ++ [c] }, ?_, rfl, ?_, ?_⟩
    · simp [handleEventCreate, h1, h2]
    · simp [alGet_alSet]
    · simp [alGet_alSet]

/-- Witness for C4: registering a fresh file (canonical path distinct
from the display path and under the root) on a collector watching
nothing. -/
theorem collector_create_event_witness :
    (∀ content, alGet (Collector.watched_paths ⟨[0], 5, [], [], 2, []⟩) [0, 7] = none →
        alGet (FsModel.content ⟨[], [([0, 7], [97])]⟩) [0, 7] = some content →
        ∃ col', handleEventCreate ⟨[0], 5, [], [], 2, []⟩ ⟨[], [([0, 7], [97])]⟩ [0, 9] [0, 7] =
            some (col', Collector.nextWd ⟨[0], 5, [], [], 2, []⟩) ∧
          col'.watcherPaths = Collector.watcherPaths ⟨[0], 5, [], [], 2, []⟩ ++ [[0, 7]] ∧
          alGet col'.watched_files (Collector.nextWd ⟨[0], 5, [], [], 2, []⟩) =
            some ⟨[[0, 9]] ++ (if ([0, 7] : List Nat) ≠ [0, 9] ∧
                (Collector.root_path ⟨[0], 5, [], [], 2, []⟩).isPrefixOf [0, 7]
              then [[0, 7]] else []), [0, 7], content.length, []⟩ ∧
          alGet col'.watched_paths [0, 9] =
            some (Collector.nextWd ⟨[0], 5, [], [], 2, []⟩)) ∧
      alGet (Collector.watched_paths ⟨[0], 5, [], [], 2, []⟩) [0, 7] = none ∧
      alGet (FsModel.content ⟨[], [([0, 7], [97])]⟩) [0, 7] = some [97] :=
  ⟨(collector_create_event ⟨[0], 5, [], [], 2, []⟩ ⟨[], [([0, 7], [97])]⟩ [0, 9] [0, 7]).2,
    by decide, by decide⟩

end Monitoring
